import Mathlib

/-!
Verification development for the role-based menu authorization cache of the
e-saksham application (source: `app/services/menu_cache.py`).

The Python module is shallowly embedded below:
* JSON snapshot payloads become plain structures (`Payload`),
* Python dicts become association lists with insert-or-overwrite semantics,
* Python sets become duplicate-free lists with order-preserving insertion,
* Python string methods `str.strip` / `str.lower` / `str.split(",")` become
  the character-list functions `pyStrip` / `pyLower` / `pySplitComma`
  (ASCII-faithful, kernel-computable),
* the file system, the database session and raised exceptions become an
  explicit world model (`FileState`, `Db`, `Outcome`).
-/

namespace MenuCache

/-! ### Python string primitives (embedding of str.lower / str.strip / str.split) -/

/-- Embedding of Python `str.lower()` (ASCII case folding, per character). -/
def pyLower (s : String) : String := String.mk (s.data.map Char.toLower)

/-- Whitespace recognized by the embedding of Python `str.strip()`. -/
def isSpaceChar (c : Char) : Bool := c == ' ' || c == '\t' || c == '\n' || c == '\r'

/-- Embedding of Python `str.strip()`: drop whitespace at both ends. -/
def pyStrip (s : String) : String :=
  String.mk (((s.data.dropWhile isSpaceChar).reverse.dropWhile isSpaceChar).reverse)

/-- Embedding of Python `s.split(",")` (note: splitting the empty string
yields `[""]`, exactly as in Python). -/
def pySplitComma (s : String) : List String := (s.data.splitOn ',').map String.mk

/-- Lexicographic comparison of character lists (embedding of Python string
comparison by code points). -/
def charListLE : List Char → List Char → Bool
  | [], _ => true
  | _ :: _, [] => false
  | a :: as, b :: bs => if a = b then charListLE as bs else decide (a < b)

/-- Embedding of Python string `<=` (lexicographic by code point). -/
def strLE (a b : String) : Bool := charListLE a.data b.data

/-- Insert `x` after every element already ordered at or before it: one step
of a stable insertion sort. -/
def insertStable {α : Type} (le : α → α → Bool) (x : α) : List α → List α
  | [] => [x]
  | y :: ys => if le y x then y :: insertStable le x ys else x :: y :: ys

/-- Stable sort by a comparator: the embedding of Python's stable
`list.sort(key=...)`. -/
def pySort {α : Type} (le : α → α → Bool) (l : List α) : List α :=
  l.foldl (fun acc x => insertStable le x acc) []

/-! ### Data model: snapshot payload records -/

/-- One entry of the snapshot's `roles` array. -/
structure RoleRec where
  id : Int
  name : String
  description : String
  is_active : Bool
deriving DecidableEq, Repr

/-- One entry of the snapshot's `menu_items` array. -/
structure MenuRec where
  id : Int
  name : String
  url : String
  icon : Option String
  order_index : Int
  parent_id : Option Int
  is_active : Bool
deriving DecidableEq, Repr

/-- One entry of the snapshot's `menu_in_roles` array. -/
structure LinkRec where
  role_id : Int
  menu_id : Int
deriving DecidableEq, Repr

/-- The snapshot's `overrides` block. -/
structure Overrides where
  super_admin_emails : List String
  sys_admin_emails : List String
deriving DecidableEq, Repr

/-- The whole snapshot document (`menu_cache.json`). -/
structure Payload where
  roles : List RoleRec
  menu_items : List MenuRec
  menu_in_roles : List LinkRec
  overrides : Overrides
deriving DecidableEq, Repr

/-! ### Python dict / set primitives -/

/-- Insert-or-overwrite into an association list, keeping first-insertion
order: the embedding of `d[k] = v` on a Python dict. -/
def dictInsert {α : Type} (m : List (Int × α)) (k : Int) (v : α) : List (Int × α) :=
  if m.any (fun kv => kv.1 == k) then
    m.map (fun kv => if kv.1 == k then (k, v) else kv)
  else
    m ++ [(k, v)]

/-- Order-preserving set insertion for integers (embedding of `set.add`). -/
def setInsertInt (s : List Int) (x : Int) : List Int := if x ∈ s then s else s ++ [x]

/-- Order-preserving set insertion for strings (embedding of `set.add`). -/
def setInsertStr (s : List String) (x : String) : List String := if x ∈ s then s else s ++ [x]

/-! ### In-memory cache state (the module-level globals) -/

/-- The hydrated in-memory indices: the module globals `_menu_index`,
`_role_menu_index`, the five named-role ids and the two email sets. -/
structure CacheState where
  menu_index : List (Int × MenuRec)
  role_menu_index : List (Int × List Int)
  default_role_id : Option Int
  anonymous_role_id : Option Int
  admin_role_id : Option Int
  super_admin_role_id : Option Int
  sys_admin_role_id : Option Int
  super_admin_emails : List String
  sys_admin_emails : List String
deriving DecidableEq, Repr

/-- Dict lookup in the menu index (embedding of `_menu_index.get(mid)`). -/
def lookupMenu (idx : List (Int × MenuRec)) (k : Int) : Option MenuRec :=
  (idx.find? (fun kv => kv.1 == k)).map Prod.snd

/-- The keys of the menu index. -/
def keysList (idx : List (Int × MenuRec)) : List Int := idx.map Prod.fst

/-- Embedding of `_hydrate_from_payload` building `_menu_index`:
`{int(record["id"]): record for record in menus}`. -/
def buildMenuIndex (menus : List MenuRec) : List (Int × MenuRec) :=
  menus.foldl (fun acc r => dictInsert acc r.id r) []

/-- One step of building `_role_menu_index`:
`_role_menu_index.setdefault(rid, set()).add(mid)`. -/
def addLink (m : List (Int × List Int)) (entry : LinkRec) : List (Int × List Int) :=
  match m.find? (fun kv => kv.1 == entry.role_id) with
  | some kv =>
    if entry.menu_id ∈ kv.2 then m else dictInsert m entry.role_id (kv.2 ++ [entry.menu_id])
  | none => m ++ [(entry.role_id, [entry.menu_id])]

/-- Embedding of `_hydrate_from_payload` building `_role_menu_index`. -/
def buildRoleMenuIndex (links : List LinkRec) : List (Int × List Int) :=
  links.foldl addLink []

/-- The five named-role slots resolved while scanning `roles`. -/
structure RoleIds where
  default_role_id : Option Int
  anonymous_role_id : Option Int
  admin_role_id : Option Int
  super_admin_role_id : Option Int
  sys_admin_role_id : Option Int
deriving DecidableEq, Repr

/-- Embedding of the named-role resolution loop of `_hydrate_from_payload`
(`if name == "user": ... elif name == "anonymous": ...`). -/
def resolveRoleIds (roles : List RoleRec) : RoleIds :=
  roles.foldl
    (fun acc role =>
      let name := pyLower role.name
      if name = "user" then { acc with default_role_id := some role.id }
      else if name = "anonymous" then { acc with anonymous_role_id := some role.id }
      else if name = "admin" then { acc with admin_role_id := some role.id }
      else if name = "superadmin" then { acc with super_admin_role_id := some role.id }
      else if name = "sysadmin" then { acc with sys_admin_role_id := some role.id }
      else acc)
    ⟨none, none, none, none, none⟩

/-- Embedding of the email-set loop of `_hydrate_from_payload`:
keep entries whose strip is nonempty, normalized to `strip().lower()`. -/
def collectEmails (l : List String) : List String :=
  l.foldl (fun acc e => if pyStrip e ≠ "" then setInsertStr acc (pyLower (pyStrip e)) else acc) []

/-- Embedding of `_hydrate_from_payload`: populate every in-memory index
from a parsed snapshot payload. -/
def hydratePayload (p : Payload) : CacheState :=
  let ids := resolveRoleIds p.roles
  { menu_index := buildMenuIndex p.menu_items
    role_menu_index := buildRoleMenuIndex p.menu_in_roles
    default_role_id := ids.default_role_id
    anonymous_role_id := ids.anonymous_role_id
    admin_role_id := ids.admin_role_id
    super_admin_role_id := ids.super_admin_role_id
    sys_admin_role_id := ids.sys_admin_role_id
    super_admin_emails := collectEmails p.overrides.super_admin_emails
    sys_admin_emails := collectEmails p.overrides.sys_admin_emails }

/-! ### Authorization resolver (`get_role_ids_for_user`) -/

/-- Embedding of `(email or "").strip().lower()`. -/
def normEmail (email : Option String) : String := pyLower (pyStrip (email.getD ""))

/-- Embedding of the guarded set-add `if _x_role_id is not None:
resolved.add(_x_role_id)`. -/
def addOptRole (s : List Int) (o : Option Int) : List Int :=
  match o with
  | some a => setInsertInt s a
  | none => s

/-- Embedding of the doubly guarded set-add `if _x_role_id is not None and
cond: resolved.add(_x_role_id)`. -/
def addOptRoleWhen (s : List Int) (o : Option Int) (cond : Bool) : List Int :=
  match o with
  | some a => if cond then setInsertInt s a else s
  | none => s

/-- Embedding of `get_role_ids_for_user(user_id, email=..., is_admin=...)`. -/
def get_role_ids_for_user (st : CacheState) (user_id : Option Int)
    (email : Option String) (is_admin : Bool) : List Int :=
  match user_id with
  | none => addOptRole [] st.anonymous_role_id
  | some _ =>
    let r1 := addOptRole [] st.default_role_id
    let r2 := if is_admin then addOptRole r1 st.admin_role_id else r1
    let ne := normEmail email
    let r4 :=
      if ne = "" then r2
      else
        let r3 := addOptRoleWhen r2 st.super_admin_role_id (ne ∈ st.super_admin_emails)
        addOptRoleWhen r3 st.sys_admin_role_id (ne ∈ st.sys_admin_emails)
    if r4 = [] then addOptRole r4 st.default_role_id else r4

/-! ### Set-insertion lemmas -/

theorem mem_setInsertInt {s : List Int} {y x : Int} :
    x ∈ setInsertInt s y ↔ x ∈ s ∨ x = y := by
  by_cases h : y ∈ s
  · simp only [setInsertInt, if_pos h]
    exact ⟨Or.inl, fun hx => hx.elim id (fun e => e ▸ h)⟩
  · simp [setInsertInt, if_neg h]

theorem setInsertInt_ne_nil {s : List Int} {y : Int} : setInsertInt s y ≠ [] := by
  intro h
  have : y ∈ setInsertInt s y := mem_setInsertInt.mpr (Or.inr rfl)
  rw [h] at this
  exact absurd this (List.not_mem_nil y)

theorem setInsertInt_eq_nil_iff {s : List Int} {y : Int} :
    setInsertInt s y = [] ↔ False := by
  simp [setInsertInt_ne_nil]

theorem mem_addOptRole {s : List Int} {o : Option Int} {x : Int} :
    x ∈ addOptRole s o ↔ x ∈ s ∨ o = some x := by
  cases o with
  | none => simp [addOptRole]
  | some a =>
    simp only [addOptRole, mem_setInsertInt, Option.some.injEq]
    constructor
    · rintro (h | rfl)
      · exact Or.inl h
      · exact Or.inr rfl
    · rintro (h | rfl)
      · exact Or.inl h
      · exact Or.inr rfl

theorem mem_addOptRoleWhen {s : List Int} {o : Option Int} {c : Bool} {x : Int} :
    x ∈ addOptRoleWhen s o c ↔ x ∈ s ∨ (c = true ∧ o = some x) := by
  cases o with
  | none => simp [addOptRoleWhen]
  | some a =>
    cases c with
    | false => simp [addOptRoleWhen]
    | true =>
      simp only [addOptRoleWhen, if_pos, mem_setInsertInt, Option.some.injEq, true_and]
      constructor
      · rintro (h | rfl)
        · exact Or.inl h
        · exact Or.inr rfl
      · rintro (h | rfl)
        · exact Or.inl h
        · exact Or.inr rfl

/-- C3: `get_role_ids_for_user(user_id, email, is_admin)` returns exactly:
for an absent `user_id`, the configured anonymous role (or nothing);
otherwise the union of the configured default ("user") role, the admin role
when `is_admin` holds, the superadmin role when the trimmed lower-cased
email is in `super_admin_emails`, and the sysadmin role when it is in
`sys_admin_emails`. The hypotheses record that the hydrated email sets
never contain the empty string. -/
theorem C3_resolver_exact (st : CacheState)
    (h1 : "" ∉ st.super_admin_emails) (h2 : "" ∉ st.sys_admin_emails)
    (uid : Option Int) (email : Option String) (adm : Bool) (x : Int) :
    x ∈ get_role_ids_for_user st uid email adm ↔
      (uid = none ∧ st.anonymous_role_id = some x) ∨
      (uid ≠ none ∧
        (st.default_role_id = some x ∨
         (adm = true ∧ st.admin_role_id = some x) ∨
         (normEmail email ∈ st.super_admin_emails ∧ st.super_admin_role_id = some x) ∨
         (normEmail email ∈ st.sys_admin_emails ∧ st.sys_admin_role_id = some x))) := by
  have hfall : ∀ s : List Int,
      (x ∈ (if s = [] then addOptRole s st.default_role_id else s)) ↔
        x ∈ s ∨ (s = [] ∧ st.default_role_id = some x) := by
    intro s
    by_cases hs : s = []
    · subst hs; simp [mem_addOptRole]
    · simp [hs]
  cases uid with
  | none => simp [get_role_ids_for_user, mem_addOptRole]
  | some u =>
    simp only [get_role_ids_for_user]
    by_cases hne : normEmail email = ""
    · have hsm : ¬ (normEmail email ∈ st.super_admin_emails) := by rw [hne]; exact h1
      have hym : ¬ (normEmail email ∈ st.sys_admin_emails) := by rw [hne]; exact h2
      rw [if_pos hne, hfall]
      cases adm <;>
        simp only [if_pos, if_neg, Bool.false_eq_true, if_false, if_true,
          mem_addOptRole, List.not_mem_nil, false_or, decide_eq_true_eq] <;>
        tauto
    · rw [if_neg hne, hfall]
      cases adm <;>
        simp only [if_pos, if_neg, Bool.false_eq_true, if_false, if_true,
          mem_addOptRoleWhen, mem_addOptRole, List.not_mem_nil, false_or,
          decide_eq_true_eq] <;>
        tauto

/-- Concrete cache state for exercising the resolver: all five named roles
configured, with the spec's example email in the superadmin allowlist. -/
def stC3 : CacheState :=
  { menu_index := []
    role_menu_index := []
    default_role_id := some 2
    anonymous_role_id := some 1
    admin_role_id := some 3
    super_admin_role_id := some 4
    sys_admin_role_id := some 5
    super_admin_emails := ["admin@esaksham.nic.in"]
    sys_admin_emails := ["ops@esaksham.nic.in"] }

/-- Witness for C3 at the spec's concrete scenario: user 42 with the
superadmin email (in mixed case, with spaces) and the admin flag. -/
theorem C3_resolver_exact_witness :
    (("" ∉ stC3.super_admin_emails) ∧ ("" ∉ stC3.sys_admin_emails)) ∧
    ((4 : Int) ∈ get_role_ids_for_user stC3 (some 42) (some " Admin@esaksham.nic.in ") true ↔
      ((some 42 : Option Int) = none ∧ stC3.anonymous_role_id = some 4) ∨
      ((some 42 : Option Int) ≠ none ∧
        (stC3.default_role_id = some 4 ∨
         (true = true ∧ stC3.admin_role_id = some 4) ∨
         (normEmail (some " Admin@esaksham.nic.in ") ∈ stC3.super_admin_emails ∧
           stC3.super_admin_role_id = some 4) ∨
         (normEmail (some " Admin@esaksham.nic.in ") ∈ stC3.sys_admin_emails ∧
           stC3.sys_admin_role_id = some 4)))) :=
  ⟨⟨by decide, by decide⟩,
    C3_resolver_exact stC3 (by decide) (by decide) (some 42)
      (some " Admin@esaksham.nic.in ") true 4⟩

/-! ### World model: snapshot file, database, raised exceptions

The snapshot file is modelled by `FileState` (absent, present-but-unparseable,
or present with a parsed payload plus a modification time); the database
session by three query results that either return rows or raise; a raised
Python exception by the `Except` value of an `Outcome`, which also carries
the file system and the process-local globals at the moment of the raise. -/

/-- State of `menu_cache.json` on disk. -/
inductive FileState where
  | absent : FileState
  | corrupt (mtime : Nat) : FileState
  | ok (payload : Payload) (mtime : Nat) : FileState
deriving DecidableEq, Repr

/-- Results of the three database queries issued by `refresh_menu_cache`
(`Role`, `MenuItem`, `MenuInRole`); `error` means the query raises. -/
structure Db where
  roles : Except Unit (List RoleRec)
  menu_items : Except Unit (List MenuRec)
  menu_in_roles : Except Unit (List LinkRec)

/-- The two environment variables read at module import time. -/
structure Env where
  super_admin_emails_raw : String
  sys_admin_emails_raw : String
deriving DecidableEq, Repr

/-- The process-local module globals `_cache_payload`, `_cache_mtime` and
the hydrated indices. -/
structure Proc where
  cache_payload : Option Payload
  cache_mtime : Option Nat
  st : CacheState
deriving DecidableEq, Repr

/-- Exceptions that the modelled code paths can raise. -/
inductive PyErr where
  | dbError : PyErr
  | parseError : PyErr
  | osError : PyErr
deriving DecidableEq, Repr

/-- Result of running one operation: the file system and process state at
return (or at raise), plus the returned value or the propagated exception. -/
structure Outcome (α : Type) where
  fs : FileState
  proc : Proc
  val : Except PyErr α

/-- The module state before anything is loaded. -/
def emptyState : CacheState := ⟨[], [], none, none, none, none, none, [], []⟩

/-- Fresh process: `_cache_payload = None`, `_cache_mtime = None`. -/
def initProc : Proc := ⟨none, none, emptyState⟩

/-- The `{}` dict returned by `_load_cache_locked` when `_cache_payload`
is still `None`. -/
def emptyPayload : Payload := ⟨[], [], [], ⟨[], []⟩⟩

/-- Embedding of the override-cleaning comprehension of `refresh_menu_cache`:
`[str(email).strip() for email in ... if str(email).strip()]`. -/
def cleanEmails (l : List String) : List String :=
  (l.map pyStrip).filter (fun s => s ≠ "")

/-- A fresh write bumps the file's modification time. -/
def nextMtime : FileState → Nat
  | .absent => 0
  | .corrupt m => m + 1
  | .ok _ m => m + 1

/-- The module-level constants `SUPER_ADMIN_EMAILS` / `SYS_ADMIN_EMAILS`:
the raw environment strings split on commas. -/
def envOverrides (env : Env) : Overrides :=
  ⟨pySplitComma env.super_admin_emails_raw, pySplitComma env.sys_admin_emails_raw⟩

/-- The `existing_overrides` computed at the top of `refresh_menu_cache`:
cleaned lists from a readable snapshot, environment seeds otherwise
(a parse failure is swallowed by the `except ... pass`). -/
def existingOverrides (env : Env) (fs : FileState) : Overrides :=
  match fs with
  | .ok payload _ =>
    ⟨cleanEmails payload.overrides.super_admin_emails,
     cleanEmails payload.overrides.sys_admin_emails⟩
  | .corrupt _ => envOverrides env
  | .absent => envOverrides env

/-- Embedding of `refresh_menu_cache`: read overrides from the current
snapshot when readable (else keep the environment seeds), run the three
queries, overwrite the file, hydrate, and record the new mtime; a query
failure raises before anything is written. -/
def refresh_menu_cache (env : Env) (db : Db) (fs : FileState) (proc : Proc) :
    Outcome Unit :=
  let existing_overrides := existingOverrides env fs
  match db.roles with
  | .error _ => ⟨fs, proc, .error .dbError⟩
  | .ok roles =>
    match db.menu_items with
    | .error _ => ⟨fs, proc, .error .dbError⟩
    | .ok items =>
      match db.menu_in_roles with
      | .error _ => ⟨fs, proc, .error .dbError⟩
      | .ok links =>
        let payload : Payload := ⟨roles, items, links, existing_overrides⟩
        let m := nextMtime fs
        ⟨FileState.ok payload m, ⟨some payload, some m, hydratePayload payload⟩, .ok ()⟩

/-- Embedding of `CACHE_PATH.stat().st_mtime` (`none` = the stat raises). -/
def statMtime : FileState → Option Nat
  | .absent => none
  | .corrupt m => some m
  | .ok _ m => some m

/-- Embedding of lines 256-263 of `_load_cache_locked`: stat the file,
re-parse and re-hydrate when nothing is loaded yet or the mtime moved,
otherwise serve the already-loaded payload. -/
def loadTail (fs : FileState) (proc : Proc) : Outcome Payload :=
  match statMtime fs with
  | none => ⟨fs, proc, .error .osError⟩
  | some mt =>
    if proc.cache_payload = none ∨ proc.cache_mtime ≠ some mt then
      match fs with
      | .absent => ⟨fs, proc, .error .osError⟩
      | .corrupt _ => ⟨fs, proc, .error .parseError⟩
      | .ok p _ => ⟨fs, ⟨some p, some mt, hydratePayload p⟩, .ok p⟩
    else
      ⟨fs, proc, .ok (proc.cache_payload.getD emptyPayload)⟩

/-- Embedding of `_load_cache_locked`: rebuild first when the file is
missing, then run the stat/parse/hydrate tail. -/
def load_cache_locked (env : Env) (db : Db) (fs : FileState) (proc : Proc) :
    Outcome Payload :=
  match fs with
  | .absent =>
    let r := refresh_menu_cache env db fs proc
    match r.val with
    | .error e => ⟨r.fs, r.proc, .error e⟩
    | .ok _ => loadTail r.fs r.proc
  | _ => loadTail fs proc

/-- Embedding of `ensure_menu_cache`: load when the file exists, else
rebuild. -/
def ensure_menu_cache (env : Env) (db : Db) (fs : FileState) (proc : Proc) :
    Outcome Unit :=
  match fs with
  | .absent => refresh_menu_cache env db fs proc
  | .corrupt m =>
    let r := load_cache_locked env db (FileState.corrupt m) proc
    ⟨r.fs, r.proc, r.val.map (fun _ => ())⟩
  | .ok p m =>
    let r := load_cache_locked env db (FileState.ok p m) proc
    ⟨r.fs, r.proc, r.val.map (fun _ => ())⟩

/-! ### Claims about the rebuild / load world model -/

/-- C6: if any of the three database queries of `refresh_menu_cache` raises,
the snapshot file and the in-memory state are left untouched and the
exception propagates; and when all three queries succeed the file is
overwritten with the freshly built payload. -/
theorem C6_db_failure_no_partial_write (env : Env) (db : Db) (fs : FileState)
    (proc : Proc)
    (hfail : db.roles.isOk = false ∨ db.menu_items.isOk = false ∨
      db.menu_in_roles.isOk = false) :
    (refresh_menu_cache env db fs proc).fs = fs ∧
    (refresh_menu_cache env db fs proc).proc = proc ∧
    (refresh_menu_cache env db fs proc).val = Except.error PyErr.dbError := by
  rcases h1 : db.roles with e1 | roles
  · simp [refresh_menu_cache, h1]
  · rcases h2 : db.menu_items with e2 | items
    · simp [refresh_menu_cache, h1, h2]
    · rcases h3 : db.menu_in_roles with e3 | links
      · simp [refresh_menu_cache, h1, h2, h3]
      · exfalso
        rcases hfail with h | h | h <;>
          simp [h1, h2, h3, Except.isOk, Except.toBool] at h

/-- Witness for C6: a failing `MenuItem` query leaves a concrete snapshot
untouched and raises. -/
theorem C6_db_failure_no_partial_write_witness :
    (refresh_menu_cache ⟨"", ""⟩ ⟨Except.ok [], Except.error (), Except.ok []⟩
        (FileState.ok emptyPayload 3) initProc).fs = FileState.ok emptyPayload 3 ∧
    (refresh_menu_cache ⟨"", ""⟩ ⟨Except.ok [], Except.error (), Except.ok []⟩
        (FileState.ok emptyPayload 3) initProc).proc = initProc ∧
    (refresh_menu_cache ⟨"", ""⟩ ⟨Except.ok [], Except.error (), Except.ok []⟩
        (FileState.ok emptyPayload 3) initProc).val = Except.error PyErr.dbError :=
  C6_db_failure_no_partial_write ⟨"", ""⟩ ⟨Except.ok [], Except.error (), Except.ok []⟩
    (FileState.ok emptyPayload 3) initProc (Or.inr (Or.inl rfl))

/-- Counterexample to C4 as stated: with a corrupt snapshot and a perfectly
healthy database, `ensure_menu_cache` propagates the parse error and never
attempts a rebuild, even though `refresh_menu_cache` would have succeeded
on the very same world. -/
theorem C4_corrupt_no_rebuild_counterexample :
    (ensure_menu_cache ⟨"", ""⟩ ⟨Except.ok [], Except.ok [], Except.ok []⟩
        (FileState.corrupt 5) initProc).val = Except.error PyErr.parseError ∧
    (refresh_menu_cache ⟨"", ""⟩ ⟨Except.ok [], Except.ok [], Except.ok []⟩
        (FileState.corrupt 5) initProc).val = Except.ok () := by
  exact ⟨rfl, rfl⟩

/-- C4 (amended): when the snapshot is missing, `ensure_menu_cache` is
exactly a rebuild, so a rebuild failure propagates to its caller; when the
snapshot exists but is corrupt (and no payload is cached yet), the parse
error itself propagates to the caller with the in-memory state untouched —
no rebuild is attempted and nothing is swallowed or partially loaded. -/
theorem C4_load_failure_propagates (env : Env) (db : Db) (proc : Proc) (m : Nat)
    (hfresh : proc.cache_payload = none) :
    ensure_menu_cache env db FileState.absent proc =
      refresh_menu_cache env db FileState.absent proc ∧
    (ensure_menu_cache env db (FileState.corrupt m) proc).val =
      Except.error PyErr.parseError ∧
    (ensure_menu_cache env db (FileState.corrupt m) proc).proc = proc := by
  refine ⟨rfl, ?_, ?_⟩ <;>
    simp [ensure_menu_cache, load_cache_locked, loadTail, statMtime, hfresh,
      Except.map]

/-- Witness for C4's amended statement at a concrete fresh process. -/
theorem C4_load_failure_propagates_witness :
    ensure_menu_cache ⟨"a@x", ""⟩ ⟨Except.error (), Except.ok [], Except.ok []⟩
        FileState.absent initProc =
      refresh_menu_cache ⟨"a@x", ""⟩ ⟨Except.error (), Except.ok [], Except.ok []⟩
        FileState.absent initProc ∧
    (ensure_menu_cache ⟨"a@x", ""⟩ ⟨Except.error (), Except.ok [], Except.ok []⟩
        (FileState.corrupt 7) initProc).val = Except.error PyErr.parseError ∧
    (ensure_menu_cache ⟨"a@x", ""⟩ ⟨Except.error (), Except.ok [], Except.ok []⟩
        (FileState.corrupt 7) initProc).proc = initProc :=
  C4_load_failure_propagates ⟨"a@x", ""⟩ ⟨Except.error (), Except.ok [], Except.ok []⟩
    initProc 7 rfl

/-- Snapshot whose overrides block holds a manually edited entry with
surrounding whitespace. -/
def pC5 : Payload := ⟨[], [], [], ⟨[" a@b.c "], []⟩⟩

/-- Counterexample to C5 as stated: rebuilding over a snapshot whose edited
`overrides.super_admin_emails` entry carries surrounding whitespace does
not write the edited list back unchanged — the entry is trimmed. -/
theorem C5_overrides_trimmed_counterexample :
    (refresh_menu_cache ⟨"x@env", "y@env"⟩ ⟨Except.ok [], Except.ok [], Except.ok []⟩
        (FileState.ok pC5 3) initProc).fs =
      FileState.ok ⟨[], [], [], ⟨["a@b.c"], []⟩⟩ 4 ∧
    pC5.overrides.super_admin_emails ≠ ["a@b.c"] := by
  exact ⟨rfl, by decide⟩

/-- C5 (amended): a rebuild over a readable snapshot writes back that
snapshot's overrides with each entry whitespace-trimmed and empty entries
dropped — so an already-normalized edited list is preserved verbatim and
the environment plays no role — while the environment-derived
comma-separated allowlists are used exactly when no readable snapshot
exists (missing or corrupt file). -/
theorem C5_overrides_preserved (env : Env) (db : Db) (fs : FileState)
    (proc : Proc) (p : Payload) (m : Nat)
    (roles : List RoleRec) (items : List MenuRec) (links : List LinkRec)
    (h1 : db.roles = Except.ok roles) (h2 : db.menu_items = Except.ok items)
    (h3 : db.menu_in_roles = Except.ok links) :
    (fs = FileState.ok p m →
      (refresh_menu_cache env db fs proc).fs =
        FileState.ok ⟨roles, items, links,
          ⟨cleanEmails p.overrides.super_admin_emails,
           cleanEmails p.overrides.sys_admin_emails⟩⟩ (m + 1)) ∧
    (fs = FileState.absent ∨ fs = FileState.corrupt m →
      (refresh_menu_cache env db fs proc).fs =
        FileState.ok ⟨roles, items, links, envOverrides env⟩ (nextMtime fs)) ∧
    (∀ l : List String, (∀ e ∈ l, pyStrip e = e ∧ e ≠ "") → cleanEmails l = l) := by
  refine ⟨?_, ?_, ?_⟩
  · rintro rfl
    simp [refresh_menu_cache, existingOverrides, h1, h2, h3, nextMtime]
  · rintro (rfl | rfl) <;>
      simp [refresh_menu_cache, existingOverrides, h1, h2, h3, nextMtime]
  · intro l hl
    induction l with
    | nil => rfl
    | cons e t ih =>
      have he := hl e (List.mem_cons_self e t)
      have ht : ∀ x ∈ t, pyStrip x = x ∧ x ≠ "" :=
        fun x hx => hl x (List.mem_cons_of_mem e hx)
      simp only [cleanEmails, List.map_cons, List.filter_cons, he.1] at ih ⊢
      rw [if_pos (by simpa using he.2)]
      exact congrArg (e :: ·) (ih ht)

/-- Witness for C5's amended statement: an already-trimmed edited list is
written back verbatim on a concrete rebuild. -/
theorem C5_overrides_preserved_witness :
    ((FileState.ok ⟨[], [], [], ⟨["a@b.c"], []⟩⟩ 3 :
        FileState) = FileState.ok ⟨[], [], [], ⟨["a@b.c"], []⟩⟩ 3 →
      (refresh_menu_cache ⟨"x@env", "y@env"⟩ ⟨Except.ok [], Except.ok [], Except.ok []⟩
          (FileState.ok ⟨[], [], [], ⟨["a@b.c"], []⟩⟩ 3) initProc).fs =
        FileState.ok ⟨[], [], [],
          ⟨cleanEmails ["a@b.c"], cleanEmails []⟩⟩ (3 + 1)) ∧
    ((FileState.ok ⟨[], [], [], ⟨["a@b.c"], []⟩⟩ 3 : FileState) = FileState.absent ∨
      (FileState.ok ⟨[], [], [], ⟨["a@b.c"], []⟩⟩ 3 : FileState) = FileState.corrupt 3 →
      (refresh_menu_cache ⟨"x@env", "y@env"⟩ ⟨Except.ok [], Except.ok [], Except.ok []⟩
          (FileState.ok ⟨[], [], [], ⟨["a@b.c"], []⟩⟩ 3) initProc).fs =
        FileState.ok ⟨[], [], [], envOverrides ⟨"x@env", "y@env"⟩⟩
          (nextMtime (FileState.ok ⟨[], [], [], ⟨["a@b.c"], []⟩⟩ 3))) ∧
    (∀ l : List String, (∀ e ∈ l, pyStrip e = e ∧ e ≠ "") → cleanEmails l = l) :=
  C5_overrides_preserved ⟨"x@env", "y@env"⟩ ⟨Except.ok [], Except.ok [], Except.ok []⟩
    (FileState.ok ⟨[], [], [], ⟨["a@b.c"], []⟩⟩ 3) initProc
    ⟨[], [], [], ⟨["a@b.c"], []⟩⟩ 3 [] [] [] rfl rfl rfl

/-- C9: after a successful rebuild, re-loading the written snapshot in a
fresh process hydrates in-memory indices (menu index, role-menu index, the
five named-role ids and both email sets) identical to those the rebuild
itself hydrated: the write path and the read path agree. -/
theorem C9_write_read_paths_agree (env env2 : Env) (db db2 : Db)
    (fs : FileState) (proc proc0 : Proc)
    (roles : List RoleRec) (items : List MenuRec) (links : List LinkRec)
    (h1 : db.roles = Except.ok roles) (h2 : db.menu_items = Except.ok items)
    (h3 : db.menu_in_roles = Except.ok links)
    (hfresh : proc0.cache_payload = none) :
    (load_cache_locked env2 db2 (refresh_menu_cache env db fs proc).fs proc0).proc.st =
      (refresh_menu_cache env db fs proc).proc.st ∧
    (load_cache_locked env2 db2 (refresh_menu_cache env db fs proc).fs proc0).val =
      Except.ok ⟨roles, items, links, existingOverrides env fs⟩ := by
  simp [refresh_menu_cache, h1, h2, h3, load_cache_locked, loadTail, statMtime, hfresh]

/-- Witness for C9 on a concrete one-role, one-menu database. -/
theorem C9_write_read_paths_agree_witness :
    (load_cache_locked ⟨"", ""⟩ ⟨Except.error (), Except.error (), Except.error ()⟩
        (refresh_menu_cache ⟨"s@x", "t@y"⟩
          ⟨Except.ok [⟨1, "user", "", true⟩],
           Except.ok [⟨10, "Home", "/home", none, 0, none, true⟩],
           Except.ok [⟨1, 10⟩]⟩
          FileState.absent initProc).fs initProc).proc.st =
      (refresh_menu_cache ⟨"s@x", "t@y"⟩
          ⟨Except.ok [⟨1, "user", "", true⟩],
           Except.ok [⟨10, "Home", "/home", none, 0, none, true⟩],
           Except.ok [⟨1, 10⟩]⟩
          FileState.absent initProc).proc.st ∧
    (load_cache_locked ⟨"", ""⟩ ⟨Except.error (), Except.error (), Except.error ()⟩
        (refresh_menu_cache ⟨"s@x", "t@y"⟩
          ⟨Except.ok [⟨1, "user", "", true⟩],
           Except.ok [⟨10, "Home", "/home", none, 0, none, true⟩],
           Except.ok [⟨1, 10⟩]⟩
          FileState.absent initProc).fs initProc).val =
      Except.ok ⟨[⟨1, "user", "", true⟩], [⟨10, "Home", "/home", none, 0, none, true⟩],
        [⟨1, 10⟩], existingOverrides ⟨"s@x", "t@y"⟩ FileState.absent⟩ :=
  C9_write_read_paths_agree ⟨"s@x", "t@y"⟩ ⟨"", ""⟩
    ⟨Except.ok [⟨1, "user", "", true⟩],
     Except.ok [⟨10, "Home", "/home", none, 0, none, true⟩],
     Except.ok [⟨1, 10⟩]⟩
    ⟨Except.error (), Except.error (), Except.error ()⟩
    FileState.absent initProc initProc
    [⟨1, "user", "", true⟩] [⟨10, "Home", "/home", none, 0, none, true⟩] [⟨1, 10⟩]
    rfl rfl rfl rfl

/-! ### Ancestor-chain expansion (`_include_parent_chain`)

The Python `_walk` is recursive with a shared visited set; the recursion
depth is bounded by the number of distinct menu ids, so the embedding uses
explicit fuel and instantiates it with `chainBound`, one more than the
number of index entries. Claim C8 proves that any fuel at least
`chainBound` gives the same result. -/

/-- Embedding of the inner `_walk` of `_include_parent_chain`: skip already
visited ids, skip ids without a record, otherwise mark visited and continue
to a truthy (`non-None` and nonzero) parent. -/
def menuWalk (idx : List (Int × MenuRec)) : Nat → List Int → Int → List Int
  | 0, e, _ => e
  | f + 1, e, mid =>
    if mid ∈ e then e
    else
      match lookupMenu idx mid with
      | none => e
      | some r =>
        match r.parent_id with
        | some p => if p ≠ 0 then menuWalk idx f (mid :: e) p else mid :: e
        | none => mid :: e

/-- Fuel sufficient for any walk over `idx`. -/
def chainBound (idx : List (Int × MenuRec)) : Nat := (keysList idx).length + 1

/-- The walk folded over all starting ids, at a given fuel. -/
def includeParentChainFuel (idx : List (Int × MenuRec)) (f : Nat)
    (ids : List Int) : List Int :=
  ids.foldl (fun e a => menuWalk idx f e a) []

/-- Embedding of `_include_parent_chain`. -/
def include_parent_chain (idx : List (Int × MenuRec)) (ids : List Int) : List Int :=
  includeParentChainFuel idx (chainBound idx) ids

/-! ### Menu tree builder (`get_menu_tree_for_roles`) -/

/-- The data fields of a `MenuNode` (children and parent links are carried
by the tree structure below). -/
structure MenuNodeData where
  id : Int
  name : String
  url : String
  icon : Option String
  order_index : Int
  parent_id : Option Int
  is_active : Bool
deriving DecidableEq, Repr

/-- Embedding of the `MenuNode(...)` construction from a menu record. -/
def toNode (r : MenuRec) : MenuNodeData :=
  ⟨r.id, r.name, r.url, r.icon, r.order_index, r.parent_id, r.is_active⟩

/-- Embedding of the `nodes` dict: one entry per expanded id whose record
exists and is active, keyed by the expanded menu id, in expansion order. -/
def buildNodes (idx : List (Int × MenuRec)) (expanded : List Int) :
    List (Int × MenuNodeData) :=
  expanded.filterMap (fun mid =>
    match lookupMenu idx mid with
    | none => none
    | some r => if r.is_active then some (mid, toNode r) else none)

/-- The keys of the `nodes` dict. -/
def nodeKeys (nodes : List (Int × MenuNodeData)) : List Int := nodes.map Prod.fst

/-- Dict lookup in the `nodes` dict. -/
def lookupNode (nodes : List (Int × MenuNodeData)) (k : Int) : Option MenuNodeData :=
  (nodes.find? (fun kv => kv.1 == k)).map Prod.snd

/-- Embedding of the linking step `if parent_id and parent_id in nodes`:
the dict key of the parent a node gets attached to, if any. -/
def linkedParent (nodes : List (Int × MenuNodeData)) (n : MenuNodeData) : Option Int :=
  match n.parent_id with
  | none => none
  | some p => if p ≠ 0 ∧ p ∈ nodeKeys nodes then some p else none

/-- Embedding of the top-level test `not node.parent or node.parent.id not
in nodes` (the second disjunct is dead code when ids are well-formed, but
is embedded faithfully). -/
def isTopLevel (nodes : List (Int × MenuNodeData)) (n : MenuNodeData) : Bool :=
  match linkedParent nodes n with
  | none => true
  | some p =>
    match lookupNode nodes p with
    | some pn => decide (pn.id ∉ nodeKeys nodes)
    | none => true

/-- The children attached to the node with dict key `k`, in dict order. -/
def childrenNodes (nodes : List (Int × MenuNodeData)) (k : Int) :
    List (Int × MenuNodeData) :=
  nodes.filter (fun c => linkedParent nodes c.2 == some k)

/-- Embedding of the sort key `(child.order_index, child.name.lower())`
compared lexicographically. -/
def nodeKeyLE (a b : MenuNodeData) : Bool :=
  decide (a.order_index < b.order_index) ||
    (decide (a.order_index = b.order_index) &&
      strLE (pyLower a.name) (pyLower b.name))

/-- The sort comparator lifted to dict entries. -/
def pairLE (a b : Int × MenuNodeData) : Bool := nodeKeyLE a.2 b.2

/-- The assembled tree: a node (with its dict key and data) owning its
sorted children. -/
inductive MTree : Type where
  | node : Int × MenuNodeData → List MTree → MTree
deriving Repr

/-- The key/data pair at the root of a tree. -/
def MTree.rootPair : MTree → Int × MenuNodeData
  | .node kv _ => kv

/-- The children of the root of a tree. -/
def MTree.subtrees : MTree → List MTree
  | .node _ cs => cs

/-- Recursive tree assembly from the `nodes` dict: attach the sorted
children of a node and recurse (the Python version links mutable `children`
lists and then sorts each reachable branch once; the result is the same
tree). The fuel bounds the recursion depth, which for configurations
reachable from a top-level node never exceeds the index size. -/
def buildTree (nodes : List (Int × MenuNodeData)) : Nat → Int × MenuNodeData → MTree
  | 0, kv => .node kv []
  | f + 1, kv =>
    .node kv ((pySort pairLE (childrenNodes nodes kv.1)).map
      (fun c => buildTree nodes f c))

/-- Fuel sufficient for `buildTree` from any top-level node. -/
def treeBound (idx : List (Int × MenuRec)) : Nat := idx.length + 1

/-- Embedding of `_role_menu_index.get(int(rid), set())`. -/
def roleMenus (st : CacheState) (rid : Int) : List Int :=
  match st.role_menu_index.find? (fun kv => kv.1 == rid) with
  | some kv => kv.2
  | none => []

/-- Union of integer sets, embedding `allowed_menu_ids.update(...)`. -/
def setUnionInt (s l : List Int) : List Int := l.foldl setInsertInt s

/-- The union of the directly granted menu-id sets of the given roles. -/
def allowedIds (st : CacheState) (role_ids : List Int) : List Int :=
  role_ids.foldl (fun acc rid => setUnionInt acc (roleMenus st rid)) []

/-- Embedding of `get_menu_tree_for_roles`. -/
def get_menu_tree_for_roles (st : CacheState) (role_ids : List Int) : List MTree :=
  let allowed := allowedIds st role_ids
  if allowed.isEmpty then []
  else
    let expanded := include_parent_chain st.menu_index allowed
    let nodes := buildNodes st.menu_index expanded
    let tops := pySort pairLE (nodes.filter (fun kv => isTopLevel nodes kv.2))
    tops.map (fun kv => buildTree nodes (treeBound st.menu_index) kv)

mutual

/-- Pre-order flattening of one tree (`_collect`). -/
def flattenTree : MTree → List MenuNodeData
  | .node kv cs => kv.2 :: flattenForest cs

/-- Pre-order flattening of a forest. -/
def flattenForest : List MTree → List MenuNodeData
  | [] => []
  | t :: ts => flattenTree t ++ flattenForest ts

end

/-- Embedding of `get_flat_menu_for_roles`: flatten the structured tree in
pre-order, node before its (sorted) children. -/
def get_flat_menu_for_roles (st : CacheState) (role_ids : List Int) :
    List MenuNodeData :=
  flattenForest (get_menu_tree_for_roles st role_ids)

/-! ### Specification-side notions for the tree claims -/

/-- The plain upward parent chain from `m` (no visited set), at a given
fuel: `m` followed by the chain of its truthy parent, while records exist. -/
def ancChain (idx : List (Int × MenuRec)) : Nat → Int → List Int
  | 0, _ => []
  | f + 1, m =>
    match lookupMenu idx m with
    | none => []
    | some r =>
      m :: (match r.parent_id with
            | some p => if p ≠ 0 then ancChain idx f p else []
            | none => [])

/-- Acyclicity of the menu forest, stated as a decidable bound: starting
anywhere, the upward parent chain ends within `idx.length` steps. -/
def AcyclicIdx (idx : List (Int × MenuRec)) : Prop :=
  ∀ k ∈ keysList idx, (ancChain idx (idx.length + 1) k).length ≤ idx.length

instance (idx : List (Int × MenuRec)) : Decidable (AcyclicIdx idx) :=
  inferInstanceAs (Decidable (∀ k ∈ keysList idx,
    (ancChain idx (idx.length + 1) k).length ≤ idx.length))

/-- Well-formedness of the menu index: every entry is keyed by its record's
id (true of every index `_hydrate_from_payload` builds). -/
def MenuIdxWF (idx : List (Int × MenuRec)) : Prop :=
  ∀ kv ∈ idx, kv.2.id = kv.1

instance (idx : List (Int × MenuRec)) : Decidable (MenuIdxWF idx) :=
  inferInstanceAs (Decidable (∀ kv ∈ idx, kv.2.id = kv.1))

/-- `ReachAnc idx a m`: the menu item `m` lies on the ancestor chain of `a`
(is `a` itself or one of its ancestors along truthy `parent_id` links, all
backed by records in the index). -/
inductive ReachAnc (idx : List (Int × MenuRec)) : Int → Int → Prop where
  | refl (a : Int) (r : MenuRec) (h : lookupMenu idx a = some r) : ReachAnc idx a a
  | step (a m p : Int) (r rp : MenuRec) (hm : ReachAnc idx a m)
      (hr : lookupMenu idx m = some r) (hp : r.parent_id = some p) (h0 : p ≠ 0)
      (hrp : lookupMenu idx p = some rp) : ReachAnc idx a p

/-! ### Lookup lemmas -/

theorem lookupMenu_mem {idx : List (Int × MenuRec)} {k : Int} {r : MenuRec}
    (h : lookupMenu idx k = some r) : (k, r) ∈ idx := by
  unfold lookupMenu at h
  rcases hf : idx.find? (fun kv => kv.1 == k) with _ | kv
  · rw [hf] at h; cases h
  · rw [hf] at h
    have hm := List.mem_of_find?_eq_some hf
    have hp := List.find?_some hf
    have hk : kv.1 = k := by simpa using hp
    have hr : kv.2 = r := by simpa using h
    have : kv = (k, r) := Prod.ext hk hr
    rwa [this] at hm

theorem lookupMenu_id {idx : List (Int × MenuRec)} (hwf : MenuIdxWF idx)
    {k : Int} {r : MenuRec} (h : lookupMenu idx k = some r) : r.id = k :=
  hwf (k, r) (lookupMenu_mem h)

theorem mem_keysList_of_lookup {idx : List (Int × MenuRec)} {k : Int} {r : MenuRec}
    (h : lookupMenu idx k = some r) : k ∈ keysList idx := by
  have := lookupMenu_mem h
  exact List.mem_map.mpr ⟨(k, r), this, rfl⟩

theorem lookup_isSome_of_mem_keysList {idx : List (Int × MenuRec)} {k : Int}
    (h : k ∈ keysList idx) : ∃ r, lookupMenu idx k = some r := by
  rcases List.mem_map.mp h with ⟨kv, hkv, hfst⟩
  have : (idx.find? (fun kv => kv.1 == k)).isSome := by
    rw [List.find?_isSome]
    exact ⟨kv, hkv, by simp [hfst]⟩
  rcases ho : idx.find? (fun kv => kv.1 == k) with _ | kv2
  · rw [ho] at this; cases this
  · exact ⟨kv2.2, by simp [lookupMenu, ho]⟩

/-! ### Filter-counting lemmas for the walk's termination measure -/

theorem filt_le {p q : Int → Bool} (hpq : ∀ x, q x = true → p x = true) :
    ∀ l : List Int, (l.filter q).length ≤ (l.filter p).length := by
  intro l
  induction l with
  | nil => simp
  | cons x xs ih =>
    rcases hq : q x with _ | _
    · rcases hp : p x with _ | _ <;> simp [List.filter_cons, hq, hp] <;> omega
    · have hp := hpq x hq
      simp [List.filter_cons, hq, hp]
      omega

theorem filt_lt {p q : Int → Bool} (hpq : ∀ x, q x = true → p x = true) :
    ∀ (l : List Int) (a : Int), a ∈ l → p a = true → q a = false →
      (l.filter q).length < (l.filter p).length := by
  intro l
  induction l with
  | nil => intro a ha; cases ha
  | cons x xs ih =>
    intro a ha hpa hqa
    rcases List.mem_cons.mp ha with rfl | hmem
    · have hle := filt_le hpq xs
      simp [List.filter_cons, hpa, hqa]
      omega
    · have hlt := ih a hmem hpa hqa
      rcases hq : q x with _ | _
      · rcases hp : p x with _ | _ <;> simp [List.filter_cons, hq, hp] <;> omega
      · have hp := hpq x hq
        simp [List.filter_cons, hq, hp]
        omega

/-- The number of index keys not yet visited by the walk. -/
def unvisited (idx : List (Int × MenuRec)) (e : List Int) : Nat :=
  ((keysList idx).filter (fun k => decide (k ∉ e))).length

theorem unvisited_le (idx : List (Int × MenuRec)) (e : List Int) :
    unvisited idx e ≤ (keysList idx).length :=
  List.length_filter_le _ _

theorem unvisited_cons_lt {idx : List (Int × MenuRec)} {e : List Int} {a : Int}
    (hk : a ∈ keysList idx) (he : a ∉ e) :
    unvisited idx (a :: e) < unvisited idx e := by
  refine filt_lt ?_ (keysList idx) a hk (by simpa using he) (by simp)
  intro x hx
  simp only [decide_eq_true_eq] at hx ⊢
  intro hmem
  exact hx (List.mem_cons_of_mem a hmem)

/-! ### Walk lemmas -/

theorem menuWalk_mono {idx : List (Int × MenuRec)} :
    ∀ (f : Nat) (e : List Int) (a x : Int), x ∈ e → x ∈ menuWalk idx f e a := by
  intro f
  induction f with
  | zero => intro e a x hx; simpa [menuWalk] using hx
  | succ f ih =>
    intro e a x hx
    simp only [menuWalk]
    split
    · exact hx
    · rcases hr : lookupMenu idx a with _ | r <;> simp only [hr]
      · exact hx
      · rcases hp : r.parent_id with _ | p <;> simp only [hp]
        · exact List.mem_cons_of_mem a hx
        · by_cases h0 : p ≠ 0
          · simp only [if_pos h0]
            exact ih (a :: e) p x (List.mem_cons_of_mem a hx)
          · simp only [if_neg h0]
            exact List.mem_cons_of_mem a hx

theorem menuWalk_start {idx : List (Int × MenuRec)} {a : Int}
    (hk : a ∈ keysList idx) :
    ∀ (f : Nat) (e : List Int), 1 ≤ f → a ∈ menuWalk idx f e a := by
  intro f e hf
  rcases f with _ | f
  · omega
  · simp only [menuWalk]
    by_cases hin : a ∈ e
    · simp only [if_pos hin]; exact hin
    · rcases lookup_isSome_of_mem_keysList hk with ⟨r, hr⟩
      simp only [if_neg hin, hr]
      rcases hp : r.parent_id with _ | p <;> simp only [hp]
      · exact List.mem_cons_self a e
      · by_cases h0 : p ≠ 0
        · simp only [if_pos h0]
          exact menuWalk_mono f (a :: e) p a (List.mem_cons_self a e)
        · simp only [if_neg h0]
          exact List.mem_cons_self a e

theorem ReachAnc.start_record {idx : List (Int × MenuRec)} {a x : Int}
    (h : ReachAnc idx a x) : ∃ r, lookupMenu idx a = some r := by
  induction h with
  | refl r hr => exact ⟨r, hr⟩
  | step m p r rp hm hr hp h0 hrp ih => exact ih

theorem ReachAnc.end_record {idx : List (Int × MenuRec)} {a x : Int}
    (h : ReachAnc idx a x) : ∃ r, lookupMenu idx x = some r := by
  cases h with
  | refl r hr => exact ⟨r, hr⟩
  | step m p r rp hm hr hp h0 hrp => exact ⟨rp, hrp⟩

theorem ReachAnc.comp {idx : List (Int × MenuRec)} {a b c : Int}
    (h1 : ReachAnc idx a b) (h2 : ReachAnc idx b c) : ReachAnc idx a c := by
  induction h2 with
  | refl r hr => exact h1
  | step m p r rp hm hr hp h0 hrp ih => exact .step a m p r rp ih hr hp h0 hrp

theorem ReachAnc.one_step {idx : List (Int × MenuRec)} {a p : Int} {r rp : MenuRec}
    (hr : lookupMenu idx a = some r) (hp : r.parent_id = some p) (h0 : p ≠ 0)
    (hrp : lookupMenu idx p = some rp) : ReachAnc idx a p :=
  .step a a p r rp (.refl a r hr) hr hp h0 hrp

theorem menuWalk_sound {idx : List (Int × MenuRec)} :
    ∀ (f : Nat) (e : List Int) (a x : Int), x ∈ menuWalk idx f e a →
      x ∈ e ∨ ReachAnc idx a x := by
  intro f
  induction f with
  | zero => intro e a x hx; exact Or.inl (by simpa [menuWalk] using hx)
  | succ f ih =>
    intro e a x hx
    simp only [menuWalk] at hx
    by_cases hin : a ∈ e
    · rw [if_pos hin] at hx; exact Or.inl hx
    · rw [if_neg hin] at hx
      rcases hr : lookupMenu idx a with _ | r
      · simp only [hr] at hx; exact Or.inl hx
      · simp only [hr] at hx
        rcases hp : r.parent_id with _ | p
        · simp only [hp] at hx
          rcases List.mem_cons.mp hx with rfl | hm
          · exact Or.inr (.refl x r hr)
          · exact Or.inl hm
        · simp only [hp] at hx
          by_cases h0 : p ≠ 0
          · rw [if_pos h0] at hx
            rcases ih (a :: e) p x hx with hm | hreach
            · rcases List.mem_cons.mp hm with rfl | hm2
              · exact Or.inr (.refl x r hr)
              · exact Or.inl hm2
            · rcases hreach.start_record with ⟨rp, hrp⟩
              exact Or.inr ((ReachAnc.one_step hr hp h0 hrp).comp hreach)
          · rw [if_neg h0] at hx
            rcases List.mem_cons.mp hx with rfl | hm
            · exact Or.inr (.refl x r hr)
            · exact Or.inl hm

/-- Closure of a visited set at one id: the id's truthy in-index parent is
also in the set. -/
def ClosedAt (idx : List (Int × MenuRec)) (E : List Int) (m : Int) : Prop :=
  ∀ r p, lookupMenu idx m = some r → r.parent_id = some p → p ≠ 0 →
    p ∈ keysList idx → p ∈ E

theorem ClosedAt.mono {idx : List (Int × MenuRec)} {E F : List Int} {m : Int}
    (hEF : ∀ x, x ∈ E → x ∈ F) (h : ClosedAt idx E m) : ClosedAt idx F m :=
  fun r p hr hp h0 hk => hEF p (h r p hr hp h0 hk)

theorem menuWalk_closed {idx : List (Int × MenuRec)} :
    ∀ (f : Nat) (e : List Int) (a : Int), unvisited idx e < f →
      ∀ x ∈ menuWalk idx f e a, x ∈ e ∨ ClosedAt idx (menuWalk idx f e a) x := by
  intro f
  induction f with
  | zero => intro e a hf; omega
  | succ f ih =>
    intro e a hf x hx
    simp only [menuWalk] at hx ⊢
    by_cases hin : a ∈ e
    · rw [if_pos hin] at hx ⊢; exact Or.inl hx
    · rw [if_neg hin] at hx ⊢
      rcases hr : lookupMenu idx a with _ | r
      · simp only [hr] at hx ⊢; exact Or.inl hx
      · simp only [hr] at hx ⊢
        rcases hp : r.parent_id with _ | p
        · simp only [hp] at hx ⊢
          rcases List.mem_cons.mp hx with rfl | hm
          · refine Or.inr ?_
            intro r' p' hr' hp' h0' hk'
            rw [hr] at hr'
            cases hr'
            rw [hp] at hp'
            cases hp'
          · exact Or.inl hm
        · simp only [hp] at hx ⊢
          by_cases h0 : p ≠ 0
          · rw [if_pos h0] at hx ⊢
            have hka : a ∈ keysList idx := mem_keysList_of_lookup hr
            have hun : unvisited idx (a :: e) < f := by
              have := unvisited_cons_lt hka hin
              omega
            rcases ih (a :: e) p hun x hx with hm | hcl
            · rcases List.mem_cons.mp hm with rfl | hm2
              · refine Or.inr ?_
                intro r' p' hr' hp' h0' hk'
                rw [hr] at hr'
                cases hr'
                rw [hp] at hp'
                cases hp'
                have hf1 : 1 ≤ f := by omega
                exact menuWalk_start hk' f (x :: e) hf1
              · exact Or.inl hm2
            · exact Or.inr hcl
          · rw [if_neg h0] at hx ⊢
            rcases List.mem_cons.mp hx with rfl | hm
            · refine Or.inr ?_
              intro r' p' hr' hp' h0' hk'
              rw [hr] at hr'
              cases hr'
              rw [hp] at hp'
              cases hp'
              exact absurd h0' h0
            · exact Or.inl hm

theorem menuWalk_stable {idx : List (Int × MenuRec)} :
    ∀ (f g : Nat) (e : List Int) (a : Int), unvisited idx e < f →
      unvisited idx e < g → menuWalk idx f e a = menuWalk idx g e a := by
  intro f
  induction f with
  | zero => intro g e a hf; omega
  | succ f ih =>
    intro g e a hf hg
    rcases g with _ | g
    · omega
    · simp only [menuWalk]
      by_cases hin : a ∈ e
      · rw [if_pos hin, if_pos hin]
      · rw [if_neg hin, if_neg hin]
        rcases hr : lookupMenu idx a with _ | r
        · simp only [hr]
        · simp only [hr]
          rcases hp : r.parent_id with _ | p
          · simp only [hp]
          · simp only [hp]
            by_cases h0 : p ≠ 0
            · rw [if_pos h0, if_pos h0]
              have hka : a ∈ keysList idx := mem_keysList_of_lookup hr
              have hlt := unvisited_cons_lt hka hin
              exact ih g (a :: e) p (by omega) (by omega)
            · rw [if_neg h0, if_neg h0]

/-! ### Lemmas about the folded expansion -/

theorem foldWalk_mono {idx : List (Int × MenuRec)} {f : Nat} :
    ∀ (ids : List Int) (e : List Int) (x : Int), x ∈ e →
      x ∈ ids.foldl (fun e a => menuWalk idx f e a) e := by
  intro ids
  induction ids with
  | nil => intro e x hx; simpa using hx
  | cons a as ih =>
    intro e x hx
    exact ih (menuWalk idx f e a) x (menuWalk_mono f e a x hx)

theorem foldWalk_start {idx : List (Int × MenuRec)} {f : Nat} (hf : 1 ≤ f) :
    ∀ (ids : List Int) (e : List Int) (a : Int), a ∈ ids → a ∈ keysList idx →
      a ∈ ids.foldl (fun e a => menuWalk idx f e a) e := by
  intro ids
  induction ids with
  | nil => intro e a ha; cases ha
  | cons b bs ih =>
    intro e a ha hk
    rcases List.mem_cons.mp ha with rfl | hmem
    · exact foldWalk_mono bs (menuWalk idx f e a) a (menuWalk_start hk f e hf)
    · exact ih (menuWalk idx f e b) a hmem hk

theorem foldWalk_sound {idx : List (Int × MenuRec)} {f : Nat} :
    ∀ (ids : List Int) (e : List Int) (x : Int),
      x ∈ ids.foldl (fun e a => menuWalk idx f e a) e →
      x ∈ e ∨ ∃ a ∈ ids, ReachAnc idx a x := by
  intro ids
  induction ids with
  | nil => intro e x hx; exact Or.inl (by simpa using hx)
  | cons b bs ih =>
    intro e x hx
    rcases ih (menuWalk idx f e b) x hx with hw | ⟨a, ha, hra⟩
    · rcases menuWalk_sound f e b x hw with he | hr
      · exact Or.inl he
      · exact Or.inr ⟨b, List.mem_cons_self b bs, hr⟩
    · exact Or.inr ⟨a, List.mem_cons_of_mem b ha, hra⟩

theorem foldWalk_closed {idx : List (Int × MenuRec)} {f : Nat}
    (hf : chainBound idx ≤ f) :
    ∀ (ids : List Int) (e : List Int), (∀ m ∈ e, ClosedAt idx e m) →
      ∀ m ∈ ids.foldl (fun e a => menuWalk idx f e a) e,
        ClosedAt idx (ids.foldl (fun e a => menuWalk idx f e a) e) m := by
  intro ids
  induction ids with
  | nil => intro e hinv m hm; simpa using hinv m (by simpa using hm)
  | cons b bs ih =>
    intro e hinv
    have hun : unvisited idx e < f := by
      have h1 := unvisited_le idx e
      have h2 : (keysList idx).length + 1 ≤ f := hf
      omega
    refine ih (menuWalk idx f e b) ?_
    intro m hm
    rcases menuWalk_closed f e b hun m hm with hme | hcl
    · exact (hinv m hme).mono (fun y hy => menuWalk_mono f e b y hy)
    · exact hcl

theorem include_parent_chain_closed {idx : List (Int × MenuRec)} {ids : List Int} :
    ∀ m ∈ include_parent_chain idx ids,
      ClosedAt idx (include_parent_chain idx ids) m := by
  intro m hm
  exact foldWalk_closed (le_refl _) ids [] (by intro m hm; cases hm) m hm

theorem include_parent_chain_complete {idx : List (Int × MenuRec)} {ids : List Int}
    {a x : Int} (hr : ReachAnc idx a x) (ha : a ∈ include_parent_chain idx ids) :
    x ∈ include_parent_chain idx ids := by
  induction hr with
  | refl r hrec => exact ha
  | step m p r rp hm hrec hp h0 hrp ih =>
    exact include_parent_chain_closed m ih r p hrec hp h0 (mem_keysList_of_lookup hrp)

theorem mem_include_parent_chain {idx : List (Int × MenuRec)} {ids : List Int}
    {x : Int} :
    x ∈ include_parent_chain idx ids ↔ ∃ a ∈ ids, ReachAnc idx a x := by
  constructor
  · intro hx
    rcases foldWalk_sound ids [] x hx with he | h
    · cases he
    · exact h
  · rintro ⟨a, ha, hr⟩
    rcases hr.start_record with ⟨r, hrec⟩
    have hk : a ∈ keysList idx := mem_keysList_of_lookup hrec
    have hmem : a ∈ include_parent_chain idx ids :=
      foldWalk_start (by simp [chainBound]) ids [] a ha hk
    exact include_parent_chain_complete hr hmem

/-- C8: the ancestor-chain expansion stabilizes: any recursion budget of at
least `chainBound` (one more than the number of menu index entries) yields
the same visited set, for every menu index — including ones whose
`parent_id` links form a cycle — and every starting set, so
`_include_parent_chain` is total. -/
theorem C8_include_parent_chain_total (idx : List (Int × MenuRec))
    (ids : List Int) (f : Nat) (hf : chainBound idx ≤ f) :
    includeParentChainFuel idx f ids = include_parent_chain idx ids := by
  unfold include_parent_chain includeParentChainFuel
  have main : ∀ (l : List Int) (e : List Int),
      l.foldl (fun e a => menuWalk idx f e a) e =
        l.foldl (fun e a => menuWalk idx (chainBound idx) e a) e := by
    intro l
    induction l with
    | nil => intro e; rfl
    | cons b bs ih =>
      intro e
      have hun := unvisited_le idx e
      have hcb : (chainBound idx) = (keysList idx).length + 1 := rfl
      have hstep : menuWalk idx f e b = menuWalk idx (chainBound idx) e b :=
        menuWalk_stable f (chainBound idx) e b (by omega) (by omega)
      rw [List.foldl_cons, List.foldl_cons, hstep, ih]
  exact main ids []

/-- Cyclic two-element menu index (items 1 and 2 point at each other). -/
def idxCyc : List (Int × MenuRec) :=
  [(1, ⟨1, "A", "/a", none, 0, some 2, true⟩), (2, ⟨2, "B", "/b", none, 0, some 1, true⟩)]

/-- Witness for C8 on the cyclic index: extra fuel changes nothing. -/
theorem C8_include_parent_chain_total_witness :
    includeParentChainFuel idxCyc 10 [1] = include_parent_chain idxCyc [1] :=
  C8_include_parent_chain_total idxCyc [1] 10 (by decide)

/-! ### Lemmas about the allowed-id union -/

theorem mem_setUnionInt {x : Int} :
    ∀ (l s : List Int), x ∈ setUnionInt s l ↔ x ∈ s ∨ x ∈ l := by
  intro l
  induction l with
  | nil => intro s; simp [setUnionInt]
  | cons b bs ih =>
    intro s
    have : setUnionInt s (b :: bs) = setUnionInt (setInsertInt s b) bs := rfl
    rw [this, ih, mem_setInsertInt, List.mem_cons]
    tauto

theorem mem_allowedIds {st : CacheState} {role_ids : List Int} {x : Int} :
    x ∈ allowedIds st role_ids ↔ ∃ rid ∈ role_ids, x ∈ roleMenus st rid := by
  have main : ∀ (l : List Int) (acc : List Int),
      x ∈ l.foldl (fun acc rid => setUnionInt acc (roleMenus st rid)) acc ↔
        x ∈ acc ∨ ∃ rid ∈ l, x ∈ roleMenus st rid := by
    intro l
    induction l with
    | nil => intro acc; simp
    | cons b bs ih =>
      intro acc
      rw [List.foldl_cons, ih, mem_setUnionInt]
      simp only [List.mem_cons]
      constructor
      · rintro ((h | h) | ⟨rid, hr, hm⟩)
        · exact Or.inl h
        · exact Or.inr ⟨b, Or.inl rfl, h⟩
        · exact Or.inr ⟨rid, Or.inr hr, hm⟩
      · rintro (h | ⟨rid, (rfl | hr), hm⟩)
        · exact Or.inl (Or.inl h)
        · exact Or.inl (Or.inr hm)
        · exact Or.inr ⟨rid, hr, hm⟩
  simpa using main role_ids []

/-! ### Lemmas about the nodes dict -/

theorem mem_buildNodes {idx : List (Int × MenuRec)} {E : List Int}
    {mid : Int} {n : MenuNodeData} :
    (mid, n) ∈ buildNodes idx E ↔
      mid ∈ E ∧ ∃ r, lookupMenu idx mid = some r ∧ r.is_active = true ∧
        n = toNode r := by
  unfold buildNodes
  rw [List.mem_filterMap]
  constructor
  · rintro ⟨a, ha, hg⟩
    rcases hr : lookupMenu idx a with _ | r
    · simp only [hr] at hg; cases hg
    · simp only [hr] at hg
      by_cases hact : r.is_active = true
      · rw [if_pos hact] at hg
        have h1 : a = mid := congrArg Prod.fst (Option.some.inj hg)
        have h2 : toNode r = n := congrArg Prod.snd (Option.some.inj hg)
        subst h1
        exact ⟨ha, r, hr, hact, h2.symm⟩
      · rw [if_neg hact] at hg; cases hg
  · rintro ⟨hmE, r, hr, hact, rfl⟩
    exact ⟨mid, hmE, by rw [hr]; simp [hact]⟩

theorem buildNodes_id {idx : List (Int × MenuRec)} (hwf : MenuIdxWF idx)
    {E : List Int} {mid : Int} {n : MenuNodeData}
    (h : (mid, n) ∈ buildNodes idx E) : n.id = mid := by
  rcases mem_buildNodes.mp h with ⟨_, r, hr, _, rfl⟩
  exact lookupMenu_id hwf hr

theorem mem_nodeKeys {nodes : List (Int × MenuNodeData)} {p : Int} :
    p ∈ nodeKeys nodes ↔ ∃ n, (p, n) ∈ nodes := by
  unfold nodeKeys
  rw [List.mem_map]
  constructor
  · rintro ⟨kv, hkv, rfl⟩
    exact ⟨kv.2, hkv⟩
  · rintro ⟨n, hn⟩
    exact ⟨(p, n), hn, rfl⟩

theorem lookupNode_mem {nodes : List (Int × MenuNodeData)} {k : Int}
    {n : MenuNodeData} (h : lookupNode nodes k = some n) : (k, n) ∈ nodes := by
  unfold lookupNode at h
  rcases hf : nodes.find? (fun kv => kv.1 == k) with _ | kv
  · rw [hf] at h; cases h
  · rw [hf] at h
    have hm := List.mem_of_find?_eq_some hf
    have hp := List.find?_some hf
    have hk : kv.1 = k := by simpa using hp
    have hn : kv.2 = n := by simpa using h
    have : kv = (k, n) := Prod.ext hk hn
    rwa [this] at hm

theorem lookupNode_isSome {nodes : List (Int × MenuNodeData)} {k : Int}
    (h : k ∈ nodeKeys nodes) : ∃ n, lookupNode nodes k = some n := by
  rcases mem_nodeKeys.mp h with ⟨n, hn⟩
  have : (nodes.find? (fun kv => kv.1 == k)).isSome := by
    rw [List.find?_isSome]
    exact ⟨(k, n), hn, by simp⟩
  rcases ho : nodes.find? (fun kv => kv.1 == k) with _ | kv
  · rw [ho] at this; cases this
  · exact ⟨kv.2, by simp [lookupNode, ho]⟩

theorem linkedParent_some {nodes : List (Int × MenuNodeData)} {n : MenuNodeData}
    {p : Int} (h : linkedParent nodes n = some p) :
    n.parent_id = some p ∧ p ≠ 0 ∧ p ∈ nodeKeys nodes := by
  unfold linkedParent at h
  rcases hq : n.parent_id with _ | q
  · simp only [hq] at h; cases h
  · simp only [hq] at h
    by_cases hc : q ≠ 0 ∧ q ∈ nodeKeys nodes
    · rw [if_pos hc] at h
      cases h
      exact ⟨rfl, hc.1, hc.2⟩
    · rw [if_neg hc] at h; cases h

/-- With a well-formed index, the dead second disjunct of the top-level test
never fires: a node is top-level exactly when it was not linked to a parent. -/
theorem isTopLevel_iff {idx : List (Int × MenuRec)} (hwf : MenuIdxWF idx)
    {E : List Int} {n : MenuNodeData} :
    isTopLevel (buildNodes idx E) n = true ↔
      linkedParent (buildNodes idx E) n = none := by
  unfold isTopLevel
  rcases hlp : linkedParent (buildNodes idx E) n with _ | p
  · simp
  · rcases linkedParent_some hlp with ⟨hpar, h0, hkeys⟩
    rcases lookupNode_isSome hkeys with ⟨pn, hpn⟩
    simp only [hpn]
    have hid : pn.id = p := buildNodes_id hwf (lookupNode_mem hpn)
    simp [hid, hkeys]

/-- The root of a built tree is the node it was built from. -/
theorem buildTree_rootPair {nodes : List (Int × MenuNodeData)} :
    ∀ (f : Nat) (kv : Int × MenuNodeData), (buildTree nodes f kv).rootPair = kv := by
  intro f kv
  cases f <;> rfl

theorem childrenNodes_mem {nodes : List (Int × MenuNodeData)}
    {c : Int × MenuNodeData} {k : Int} :
    c ∈ childrenNodes nodes k ↔ c ∈ nodes ∧ linkedParent nodes c.2 = some k := by
  unfold childrenNodes
  rw [List.mem_filter]
  constructor
  · rintro ⟨h1, h2⟩
    exact ⟨h1, by simpa using h2⟩
  · rintro ⟨h1, h2⟩
    exact ⟨h1, by simpa using h2⟩

theorem mem_insertStable {α : Type} {le : α → α → Bool} {x a : α} :
    ∀ l : List α, a ∈ insertStable le x l ↔ a = x ∨ a ∈ l := by
  intro l
  induction l with
  | nil => simp [insertStable]
  | cons y ys ih =>
    unfold insertStable
    by_cases hle : le y x = true
    · rw [if_pos hle]
      rw [List.mem_cons, ih, List.mem_cons]
      tauto
    · rw [if_neg hle]
      rw [List.mem_cons, List.mem_cons]

theorem mem_pySort {α : Type} {le : α → α → Bool} {a : α} :
    ∀ l : List α, a ∈ pySort le l ↔ a ∈ l := by
  have main : ∀ (l acc : List α),
      a ∈ l.foldl (fun acc x => insertStable le x acc) acc ↔ a ∈ acc ∨ a ∈ l := by
    intro l
    induction l with
    | nil => intro acc; simp
    | cons x xs ih =>
      intro acc
      rw [List.foldl_cons, ih, mem_insertStable, List.mem_cons]
      tauto
  intro l
  unfold pySort
  rw [main]
  simp

theorem mem_flattenForest {x : MenuNodeData} :
    ∀ (l : List MTree), x ∈ flattenForest l ↔ ∃ t ∈ l, x ∈ flattenTree t := by
  intro l
  induction l with
  | nil => simp [flattenForest]
  | cons t ts ih =>
    rw [flattenForest, List.mem_append, ih]
    constructor
    · rintro (h | ⟨u, hu, hx⟩)
      · exact ⟨t, List.mem_cons_self t ts, h⟩
      · exact ⟨u, List.mem_cons_of_mem t hu, hx⟩
    · rintro ⟨u, hu, hx⟩
      rcases List.mem_cons.mp hu with rfl | hu2
      · exact Or.inl hx
      · exact Or.inr ⟨u, hu2, hx⟩

theorem root_mem_flattenTree {nodes : List (Int × MenuNodeData)} :
    ∀ (f : Nat) (kv : Int × MenuNodeData),
      kv.2 ∈ flattenTree (buildTree nodes f kv) := by
  intro f kv
  cases f <;> exact List.mem_cons_self _ _

theorem flattenTree_sound {nodes : List (Int × MenuNodeData)} :
    ∀ (f : Nat) (kv : Int × MenuNodeData) (x : MenuNodeData),
      x ∈ flattenTree (buildTree nodes f kv) →
      x = kv.2 ∨ ∃ kv2 ∈ nodes, x = kv2.2 := by
  intro f
  induction f with
  | zero =>
    intro kv x hx
    have hx2 : x = kv.2 := by
      simpa [buildTree, flattenTree, flattenForest] using hx
    exact Or.inl hx2
  | succ f ih =>
    intro kv x hx
    rw [buildTree, flattenTree, List.mem_cons] at hx
    rcases hx with rfl | hx
    · exact Or.inl rfl
    · rcases (mem_flattenForest _).mp hx with ⟨t, ht, hxt⟩
      rcases List.mem_map.mp ht with ⟨c, hc, rfl⟩
      have hcn : c ∈ nodes :=
        (childrenNodes_mem.mp ((mem_pySort _).mp hc)).1
      rcases ih c x hxt with rfl | ⟨kv2, hkv2, rfl⟩
      · exact Or.inr ⟨c, hcn, rfl⟩
      · exact Or.inr ⟨kv2, hkv2, rfl⟩

/-! ### Acyclicity: the upward-chain measure -/

theorem keysList_length (idx : List (Int × MenuRec)) :
    (keysList idx).length = idx.length :=
  List.length_map idx Prod.fst

theorem ancChain_stable {idx : List (Int × MenuRec)} :
    ∀ (f : Nat) (x : Int), (ancChain idx f x).length < f →
      ancChain idx (f + 1) x = ancChain idx f x := by
  intro f
  induction f with
  | zero => intro x hx; omega
  | succ f ih =>
    intro x hx
    have unfold2 : ancChain idx (f + 1 + 1) x =
        match lookupMenu idx x with
        | none => []
        | some r => x :: (match r.parent_id with
            | some p => if p ≠ 0 then ancChain idx (f + 1) p else []
            | none => []) := rfl
    have unfold1 : ancChain idx (f + 1) x =
        match lookupMenu idx x with
        | none => []
        | some r => x :: (match r.parent_id with
            | some p => if p ≠ 0 then ancChain idx f p else []
            | none => []) := rfl
    rw [unfold1] at hx
    rw [unfold2, unfold1]
    rcases hr : lookupMenu idx x with _ | r <;> simp only [hr] at hx ⊢
    rcases hp : r.parent_id with _ | p <;> simp only [hp] at hx ⊢
    by_cases h0 : p ≠ 0
    · rw [if_pos h0] at hx
      simp only [List.length_cons] at hx
      rw [if_pos h0, if_pos h0, ih p (by omega)]
    · rw [if_neg h0, if_neg h0]

theorem ancChain_pos {idx : List (Int × MenuRec)} {k : Int} {r : MenuRec}
    (hr : lookupMenu idx k = some r) (f : Nat) :
    1 ≤ (ancChain idx (f + 1) k).length := by
  simp only [ancChain, hr]
  rcases hp : r.parent_id with _ | p
  · simp
  · by_cases h0 : p ≠ 0 <;> simp [h0]

theorem anc_measure_lt {idx : List (Int × MenuRec)} (hA : AcyclicIdx idx)
    {k p : Int} {r : MenuRec} (hr : lookupMenu idx k = some r)
    (hp : r.parent_id = some p) (h0 : p ≠ 0) :
    (ancChain idx (idx.length + 1) p).length <
      (ancChain idx (idx.length + 1) k).length := by
  have hk : k ∈ keysList idx := mem_keysList_of_lookup hr
  have hbound := hA k hk
  have hstep : ancChain idx (idx.length + 1) k = k :: ancChain idx idx.length p := by
    simp only [ancChain, hr, hp]
    rw [if_pos h0]
  by_cases hcase : (ancChain idx idx.length p).length < idx.length
  · have hs := ancChain_stable idx.length p hcase
    rw [hs, hstep]
    simp only [List.length_cons]
    omega
  · exfalso
    have hlen : (ancChain idx (idx.length + 1) k).length =
        (ancChain idx idx.length p).length + 1 := by
      rw [hstep]; simp
    omega

/-! ### Downward paths through the nodes dict -/

/-- `DescP nodes j kv c`: the node `c` sits `j` child-links below `kv`
inside the linked node structure. -/
inductive DescP (nodes : List (Int × MenuNodeData)) :
    Nat → (Int × MenuNodeData) → (Int × MenuNodeData) → Prop where
  | refl (kv : Int × MenuNodeData) : DescP nodes 0 kv kv
  | step (kv1 kv c : Int × MenuNodeData) (j : Nat) (h1 : kv1 ∈ nodes)
      (h2 : linkedParent nodes kv1.2 = some kv.1) (h3 : DescP nodes j kv1 c) :
      DescP nodes (j + 1) kv c

theorem DescP.extend {nodes : List (Int × MenuNodeData)}
    {j : Nat} {kv0 pkv : Int × MenuNodeData}
    (h : DescP nodes j kv0 pkv) :
    ∀ kv, kv ∈ nodes → linkedParent nodes kv.2 = some pkv.1 →
      DescP nodes (j + 1) kv0 kv := by
  induction h with
  | refl kv' =>
    intro kv hkv hlink
    exact .step kv kv' kv 0 hkv hlink (.refl kv)
  | step kv1 kv' c j h1 h2 h3 ih =>
    intro kv hkv hlink
    exact .step kv1 kv' kv (j + 1) h1 h2 (ih kv hkv hlink)

theorem flattenTree_desc {nodes : List (Int × MenuNodeData)}
    {j : Nat} {kv c : Int × MenuNodeData} (h : DescP nodes j kv c) :
    ∀ f : Nat, j < f → c.2 ∈ flattenTree (buildTree nodes f kv) := by
  induction h with
  | refl kv' =>
    intro f hf
    exact root_mem_flattenTree f kv'
  | step kv1 kv' c j h1 h2 h3 ih =>
    intro f hf
    rcases f with _ | f
    · omega
    · rw [buildTree, flattenTree, List.mem_cons]
      refine Or.inr ((mem_flattenForest _).mpr ⟨buildTree nodes f kv1, ?_, ih f (by omega)⟩)
      refine List.mem_map.mpr ⟨kv1, ?_, rfl⟩
      rw [mem_pySort]
      exact childrenNodes_mem.mpr ⟨h1, h2⟩

theorem upchain_to_top {idx : List (Int × MenuRec)} {E : List Int}
    (hwf : MenuIdxWF idx) (hA : AcyclicIdx idx) :
    ∀ kv, kv ∈ buildNodes idx E →
      ∃ kv0 j, kv0 ∈ buildNodes idx E ∧
        isTopLevel (buildNodes idx E) kv0.2 = true ∧
        DescP (buildNodes idx E) j kv0 kv ∧
        j + 1 ≤ (ancChain idx (idx.length + 1) kv.1).length := by
  suffices h : ∀ (n : Nat) (kv : Int × MenuNodeData), kv ∈ buildNodes idx E →
      (ancChain idx (idx.length + 1) kv.1).length ≤ n →
      ∃ kv0 j, kv0 ∈ buildNodes idx E ∧
        isTopLevel (buildNodes idx E) kv0.2 = true ∧
        DescP (buildNodes idx E) j kv0 kv ∧
        j + 1 ≤ (ancChain idx (idx.length + 1) kv.1).length by
    exact fun kv hkv => h ((ancChain idx (idx.length + 1) kv.1).length) kv hkv le_rfl
  intro n
  induction n with
  | zero =>
    intro kv hkv hle
    rcases mem_buildNodes.mp (show (kv.1, kv.2) ∈ buildNodes idx E from hkv)
      with ⟨_, r, hr, _, _⟩
    have := ancChain_pos hr idx.length
    omega
  | succ n ih =>
    intro kv hkv hle
    rcases hlp : linkedParent (buildNodes idx E) kv.2 with _ | p
    · have htop : isTopLevel (buildNodes idx E) kv.2 = true :=
        (isTopLevel_iff hwf).mpr hlp
      rcases mem_buildNodes.mp (show (kv.1, kv.2) ∈ buildNodes idx E from hkv)
        with ⟨_, r, hr, _, _⟩
      exact ⟨kv, 0, hkv, htop, .refl kv, ancChain_pos hr idx.length⟩
    · rcases linkedParent_some hlp with ⟨hpar, h0, hkeys⟩
      rcases mem_nodeKeys.mp hkeys with ⟨np, hnp⟩
      rcases mem_buildNodes.mp (show (kv.1, kv.2) ∈ buildNodes idx E from hkv)
        with ⟨_, r, hr, _, hnd⟩
      have hrpar : r.parent_id = some p := by
        have : kv.2.parent_id = r.parent_id := by rw [hnd]; rfl
        rw [← this]; exact hpar
      have hlt := anc_measure_lt hA hr hrpar h0
      rcases ih (p, np) hnp (by simpa using Nat.le_of_lt_succ (lt_of_lt_of_le hlt hle))
        with ⟨kv0, j, hkv0, htop, hdesc, hj⟩
      have hj2 : j + 1 ≤ (ancChain idx (idx.length + 1) p).length := by simpa using hj
      refine ⟨kv0, j + 1, hkv0, htop, hdesc.extend kv hkv (by simpa using hlp), ?_⟩
      omega

/-! ### Assembling the tree claims -/

theorem get_menu_tree_empty {st : CacheState} {role_ids : List Int}
    (h : allowedIds st role_ids = []) :
    get_menu_tree_for_roles st role_ids = [] := by
  simp [get_menu_tree_for_roles, h]

theorem get_menu_tree_eq {st : CacheState} {role_ids : List Int}
    (hne : allowedIds st role_ids ≠ []) :
    get_menu_tree_for_roles st role_ids =
      (pySort pairLE
        ((buildNodes st.menu_index
            (include_parent_chain st.menu_index (allowedIds st role_ids))).filter
          (fun kv => isTopLevel (buildNodes st.menu_index
            (include_parent_chain st.menu_index (allowedIds st role_ids))) kv.2))).map
        (fun kv => buildTree (buildNodes st.menu_index
          (include_parent_chain st.menu_index (allowedIds st role_ids)))
          (treeBound st.menu_index) kv) := by
  have hne2 : (allowedIds st role_ids).isEmpty = false := by
    rcases hl : allowedIds st role_ids with _ | ⟨a, as⟩
    · exact absurd hl hne
    · rfl
  simp [get_menu_tree_for_roles, hne2]

theorem root_mem_tree {st : CacheState} {role_ids : List Int}
    (hne : allowedIds st role_ids ≠ []) {kv : Int × MenuNodeData}
    (hkv : kv ∈ buildNodes st.menu_index
      (include_parent_chain st.menu_index (allowedIds st role_ids)))
    (htop : isTopLevel (buildNodes st.menu_index
      (include_parent_chain st.menu_index (allowedIds st role_ids))) kv.2 = true) :
    ∃ t ∈ get_menu_tree_for_roles st role_ids, t.rootPair = kv := by
  rw [get_menu_tree_eq hne]
  refine ⟨buildTree (buildNodes st.menu_index
      (include_parent_chain st.menu_index (allowedIds st role_ids)))
      (treeBound st.menu_index) kv, ?_, buildTree_rootPair _ _⟩
  refine List.mem_map.mpr ⟨kv, ?_, rfl⟩
  rw [mem_pySort]
  exact List.mem_filter.mpr ⟨hkv, htop⟩

theorem node_in_flatten {st : CacheState} (hwf : MenuIdxWF st.menu_index)
    (hA : AcyclicIdx st.menu_index) {role_ids : List Int}
    {kv : Int × MenuNodeData}
    (hkv : kv ∈ buildNodes st.menu_index
      (include_parent_chain st.menu_index (allowedIds st role_ids)))
    (hne : allowedIds st role_ids ≠ []) :
    kv.2 ∈ get_flat_menu_for_roles st role_ids := by
  rcases upchain_to_top hwf hA kv hkv with ⟨kv0, j, hkv0, htop, hdesc, hj⟩
  have hkkeys : kv.1 ∈ keysList st.menu_index := by
    rcases mem_buildNodes.mp (show (kv.1, kv.2) ∈ _ from hkv) with ⟨_, r, hr, _, _⟩
    exact mem_keysList_of_lookup hr
  have hμ := hA kv.1 hkkeys
  have hjf : j < treeBound st.menu_index := by
    unfold treeBound
    omega
  have hmem : kv.2 ∈ flattenTree (buildTree
      (buildNodes st.menu_index
        (include_parent_chain st.menu_index (allowedIds st role_ids)))
      (treeBound st.menu_index) kv0) :=
    flattenTree_desc hdesc _ hjf
  unfold get_flat_menu_for_roles
  rw [get_menu_tree_eq hne]
  refine (mem_flattenForest _).mpr
    ⟨buildTree (buildNodes st.menu_index
      (include_parent_chain st.menu_index (allowedIds st role_ids)))
      (treeBound st.menu_index) kv0, ?_, hmem⟩
  refine List.mem_map.mpr ⟨kv0, ?_, rfl⟩
  rw [mem_pySort]
  exact List.mem_filter.mpr ⟨hkv0, htop⟩

theorem flat_value_mem_nodes {st : CacheState} {role_ids : List Int}
    {n : MenuNodeData} (hn : n ∈ get_flat_menu_for_roles st role_ids)
    (hne : allowedIds st role_ids ≠ []) :
    ∃ kv ∈ buildNodes st.menu_index
      (include_parent_chain st.menu_index (allowedIds st role_ids)), n = kv.2 := by
  unfold get_flat_menu_for_roles at hn
  rw [get_menu_tree_eq hne] at hn
  rcases (mem_flattenForest _).mp hn with ⟨t, ht, hnt⟩
  rcases List.mem_map.mp ht with ⟨kv0, hkv0, rfl⟩
  have hkv0n : kv0 ∈ buildNodes st.menu_index
      (include_parent_chain st.menu_index (allowedIds st role_ids)) :=
    (List.mem_filter.mp ((mem_pySort _).mp hkv0)).1
  rcases flattenTree_sound _ kv0 n hnt with rfl | ⟨kv2, hkv2, rfl⟩
  · exact ⟨kv0, hkv0n, rfl⟩
  · exact ⟨kv2, hkv2, rfl⟩

/-- C1: flattening the forest of `get_menu_tree_for_roles` (pre-order, via
`get_flat_menu_for_roles`) yields exactly the active menu items that are
directly granted to one of the roles or are ancestors (along truthy
`parent_id` links) of a granted item; no inactive item ever appears; and an
empty union of grants yields an empty forest. Stated for a well-formed,
acyclic menu index (the invariant of the data model). -/
theorem C1_flat_menu_exact (st : CacheState) (hwf : MenuIdxWF st.menu_index)
    (hA : AcyclicIdx st.menu_index) (role_ids : List Int) :
    (allowedIds st role_ids = [] → get_menu_tree_for_roles st role_ids = []) ∧
    (∀ n ∈ get_flat_menu_for_roles st role_ids, n.is_active = true) ∧
    (∀ m : Int,
      (∃ n ∈ get_flat_menu_for_roles st role_ids, n.id = m) ↔
        ∃ r, lookupMenu st.menu_index m = some r ∧ r.is_active = true ∧
          ∃ a, (∃ rid ∈ role_ids, a ∈ roleMenus st rid) ∧
            ReachAnc st.menu_index a m) := by
  by_cases hne : allowedIds st role_ids = []
  · refine ⟨fun _ => get_menu_tree_empty hne, ?_, ?_⟩
    · intro n hn
      unfold get_flat_menu_for_roles at hn
      rw [get_menu_tree_empty hne] at hn
      cases hn
    · intro m
      constructor
      · rintro ⟨n, hn, _⟩
        unfold get_flat_menu_for_roles at hn
        rw [get_menu_tree_empty hne] at hn
        cases hn
      · rintro ⟨r, hr, hact, a, hga, hreach⟩
        have : a ∈ allowedIds st role_ids := mem_allowedIds.mpr hga
        rw [hne] at this
        cases this
  · refine ⟨fun h => absurd h hne, ?_, ?_⟩
    · intro n hn
      rcases flat_value_mem_nodes hn hne with ⟨kv, hkv, rfl⟩
      rcases mem_buildNodes.mp (show (kv.1, kv.2) ∈ _ from hkv)
        with ⟨_, r, _, hact, hnd⟩
      rw [hnd]
      exact hact
    · intro m
      constructor
      · rintro ⟨n, hn, rfl⟩
        rcases flat_value_mem_nodes hn hne with ⟨kv, hkv, rfl⟩
        rcases mem_buildNodes.mp (show (kv.1, kv.2) ∈ _ from hkv)
          with ⟨hmE, r, hr, hact, hnd⟩
        have hid : kv.2.id = kv.1 := by
          rw [hnd]
          exact lookupMenu_id hwf hr
        rw [hid]
        rcases mem_include_parent_chain.mp hmE with ⟨a, haA, hreach⟩
        exact ⟨r, hr, hact, a, mem_allowedIds.mp haA, hreach⟩
      · rintro ⟨r, hr, hact, a, hga, hreach⟩
        have haA : a ∈ allowedIds st role_ids := mem_allowedIds.mpr hga
        have hmE : m ∈ include_parent_chain st.menu_index (allowedIds st role_ids) :=
          mem_include_parent_chain.mpr ⟨a, haA, hreach⟩
        have hkv : (m, toNode r) ∈ buildNodes st.menu_index
            (include_parent_chain st.menu_index (allowedIds st role_ids)) :=
          mem_buildNodes.mpr ⟨hmE, r, hr, hact, rfl⟩
        refine ⟨toNode r, node_in_flatten hwf hA hkv hne, ?_⟩
        exact lookupMenu_id hwf hr

/-- The cache state of the spec's concrete scenario (three roles, a Home
item with a Reports child, grants for anonymous and user). -/
def stEx : CacheState := hydratePayload
  ⟨[⟨1, "anonymous", "", true⟩, ⟨2, "user", "", true⟩, ⟨3, "admin", "", true⟩],
   [⟨10, "Home", "/h", none, 0, none, true⟩,
    ⟨11, "Reports", "/r", none, 1, some 10, true⟩],
   [⟨1, 10⟩, ⟨2, 10⟩, ⟨2, 11⟩], ⟨[], []⟩⟩

/-- Witness for C1 on the spec's concrete scenario. -/
theorem C1_flat_menu_exact_witness :
    (allowedIds stEx [2] = [] → get_menu_tree_for_roles stEx [2] = []) ∧
    (∀ n ∈ get_flat_menu_for_roles stEx [2], n.is_active = true) ∧
    (∀ m : Int,
      (∃ n ∈ get_flat_menu_for_roles stEx [2], n.id = m) ↔
        ∃ r, lookupMenu stEx.menu_index m = some r ∧ r.is_active = true ∧
          ∃ a, (∃ rid ∈ [(2 : Int)], a ∈ roleMenus stEx rid) ∧
            ReachAnc stEx.menu_index a m) :=
  C1_flat_menu_exact stEx (by decide) (by decide) [2]

/-- C10: a `parent_id` equal to `0` is treated exactly like a null
`parent_id`: for a granted, active menu item whose `parent_id` is `0` the
ancestor walk stops at the item itself (item `0` is never pulled in through
it), and the item is placed as a top-level root with no parent link — even
if a menu item with id `0` exists, is active, and is granted to the same
roles. -/
theorem C10_parent_zero_is_root (st : CacheState) (hwf : MenuIdxWF st.menu_index)
    (role_ids : List Int) (m : Int) (r : MenuRec)
    (hg : ∃ rid ∈ role_ids, m ∈ roleMenus st rid)
    (hr : lookupMenu st.menu_index m = some r)
    (hact : r.is_active = true) (hp0 : r.parent_id = some 0) :
    include_parent_chain st.menu_index [m] = [m] ∧
    ∃ t ∈ get_menu_tree_for_roles st role_ids, t.rootPair = (m, toNode r) := by
  constructor
  · unfold include_parent_chain includeParentChainFuel
    rw [List.foldl_cons, List.foldl_nil]
    show menuWalk st.menu_index ((keysList st.menu_index).length + 1) [] m = [m]
    simp [menuWalk, hr, hp0]
  · have hmA : m ∈ allowedIds st role_ids := mem_allowedIds.mpr hg
    have hne : allowedIds st role_ids ≠ [] := by
      intro h
      rw [h] at hmA
      cases hmA
    have hmE : m ∈ include_parent_chain st.menu_index (allowedIds st role_ids) :=
      mem_include_parent_chain.mpr ⟨m, hmA, .refl m r hr⟩
    have hkv : (m, toNode r) ∈ buildNodes st.menu_index
        (include_parent_chain st.menu_index (allowedIds st role_ids)) :=
      mem_buildNodes.mpr ⟨hmE, r, hr, hact, rfl⟩
    have htop : isTopLevel (buildNodes st.menu_index
        (include_parent_chain st.menu_index (allowedIds st role_ids)))
        (toNode r) = true := by
      rw [isTopLevel_iff hwf]
      unfold linkedParent
      have : (toNode r).parent_id = some 0 := hp0
      simp [this]
    exact root_mem_tree hne hkv htop

/-- Cache state where item 0 exists, is active and is granted, and item 7
has `parent_id = 0`. -/
def stC10 : CacheState := hydratePayload
  ⟨[⟨2, "user", "", true⟩],
   [⟨0, "Zero", "/z", none, 0, none, true⟩,
    ⟨7, "Seven", "/m", none, 1, some 0, true⟩],
   [⟨2, 0⟩, ⟨2, 7⟩], ⟨[], []⟩⟩

/-- Witness for C10: item 7 with `parent_id = 0` is a root and its walk
stops, although item 0 exists, is active and is granted. -/
theorem C10_parent_zero_is_root_witness :
    include_parent_chain stC10.menu_index [7] = [7] ∧
    ∃ t ∈ get_menu_tree_for_roles stC10 [2],
      t.rootPair = (7, toNode ⟨7, "Seven", "/m", none, 1, some 0, true⟩) :=
  C10_parent_zero_is_root stC10 (by decide) [2] 7 ⟨7, "Seven", "/m", none, 1, some 0, true⟩
    (by decide) (by decide) rfl rfl

/-- Cache state with an inactive parent (20) of an active granted child
(21); no other grants. -/
def stC2 : CacheState := hydratePayload
  ⟨[⟨2, "user", "", true⟩],
   [⟨20, "P", "/p", none, 0, none, false⟩,
    ⟨21, "C", "/c", none, 0, some 20, true⟩],
   [⟨2, 21⟩], ⟨[], []⟩⟩

/-- Counterexample to C2 as stated: item 21 is granted, active, and its only
parent 20 is inactive and not granted by any other path — yet 21 is NOT
dropped from the result: the flattened menu is exactly `[21]` (the item is
re-rooted at top level). -/
theorem C2_inactive_parent_counterexample :
    (get_flat_menu_for_roles stC2 [2]).map (fun n => n.id) = [21] ∧
    lookupMenu stC2.menu_index 20 =
      some ⟨20, "P", "/p", none, 0, none, false⟩ ∧
    roleMenus stC2 2 = [21] := by
  refine ⟨?_, ?_, ?_⟩ <;> decide

/-- C2 (amended): a granted active item's parent, even when not itself
granted, appears in the forest when it is active (ancestor inclusion); when
the parent is inactive, the granted item is NOT dropped — it is promoted to
a top-level root (carrying its subtree), and the inactive parent itself
never appears. -/
theorem C2_ancestor_inclusion (st : CacheState)
    (hwf : MenuIdxWF st.menu_index) (hA : AcyclicIdx st.menu_index)
    (role_ids : List Int) (g p : Int) (rg rp : MenuRec)
    (hg : ∃ rid ∈ role_ids, g ∈ roleMenus st rid)
    (hnotg : ∀ rid ∈ role_ids, p ∉ roleMenus st rid)
    (hrg : lookupMenu st.menu_index g = some rg)
    (hgact : rg.is_active = true)
    (hpar : rg.parent_id = some p) (hp0 : p ≠ 0)
    (hrp : lookupMenu st.menu_index p = some rp) :
    (rp.is_active = true → ∃ n ∈ get_flat_menu_for_roles st role_ids, n.id = p) ∧
    (rp.is_active = false →
      (∃ t ∈ get_menu_tree_for_roles st role_ids, t.rootPair = (g, toNode rg)) ∧
      ∀ n ∈ get_flat_menu_for_roles st role_ids, n.id ≠ p) := by
  have hgA : g ∈ allowedIds st role_ids := mem_allowedIds.mpr hg
  have hne : allowedIds st role_ids ≠ [] := by
    intro h
    rw [h] at hgA
    cases hgA
  have hgE : g ∈ include_parent_chain st.menu_index (allowedIds st role_ids) :=
    mem_include_parent_chain.mpr ⟨g, hgA, .refl g rg hrg⟩
  constructor
  · intro hpact
    have hreach : ReachAnc st.menu_index g p := ReachAnc.one_step hrg hpar hp0 hrp
    have hpE : p ∈ include_parent_chain st.menu_index (allowedIds st role_ids) :=
      mem_include_parent_chain.mpr ⟨g, hgA, hreach⟩
    have hkv : (p, toNode rp) ∈ buildNodes st.menu_index
        (include_parent_chain st.menu_index (allowedIds st role_ids)) :=
      mem_buildNodes.mpr ⟨hpE, rp, hrp, hpact, rfl⟩
    exact ⟨toNode rp, node_in_flatten hwf hA hkv hne, lookupMenu_id hwf hrp⟩
  · intro hpinact
    have hpnot : p ∉ nodeKeys (buildNodes st.menu_index
        (include_parent_chain st.menu_index (allowedIds st role_ids))) := by
      intro hmem
      rcases mem_nodeKeys.mp hmem with ⟨np, hnp⟩
      rcases mem_buildNodes.mp hnp with ⟨_, r2, hr2, hact2, _⟩
      rw [hrp] at hr2
      cases hr2
      rw [hpinact] at hact2
      cases hact2
    have hkvg : (g, toNode rg) ∈ buildNodes st.menu_index
        (include_parent_chain st.menu_index (allowedIds st role_ids)) :=
      mem_buildNodes.mpr ⟨hgE, rg, hrg, hgact, rfl⟩
    have hlp : linkedParent (buildNodes st.menu_index
        (include_parent_chain st.menu_index (allowedIds st role_ids)))
        (toNode rg) = none := by
      unfold linkedParent
      have hpp : (toNode rg).parent_id = some p := hpar
      simp [hpp, hpnot]
    have htop : isTopLevel (buildNodes st.menu_index
        (include_parent_chain st.menu_index (allowedIds st role_ids)))
        (toNode rg) = true :=
      (isTopLevel_iff hwf).mpr hlp
    refine ⟨root_mem_tree hne hkvg htop, ?_⟩
    intro n hn hnid
    rcases flat_value_mem_nodes hn hne with ⟨kv, hkv, rfl⟩
    rcases mem_buildNodes.mp (show (kv.1, kv.2) ∈ _ from hkv)
      with ⟨_, r2, hr2, hact2, hnd⟩
    have hid : kv.1 = p := by
      have h1 : kv.2.id = r2.id := by rw [hnd]; rfl
      have h2 : r2.id = kv.1 := lookupMenu_id hwf hr2
      rw [← h2, ← h1]
      exact hnid
    rw [hid, hrp] at hr2
    cases hr2
    rw [hpinact] at hact2
    cases hact2

/-- Witness for C2's amended statement, on a state with an active parent
(1, not granted) of a granted active child (2), plus the inactive-parent
configuration of `stC2`. -/
def stC2b : CacheState := hydratePayload
  ⟨[⟨2, "user", "", true⟩],
   [⟨1, "Root", "/r", none, 0, none, true⟩,
    ⟨2, "Leaf", "/l", none, 0, some 1, true⟩],
   [⟨2, 2⟩], ⟨[], []⟩⟩

/-- Witness for C2's amended statement: the active, non-granted parent 1 of
granted item 2 appears in the flattened result. -/
theorem C2_ancestor_inclusion_witness :
    ((⟨1, "Root", "/r", none, 0, none, true⟩ : MenuRec).is_active = true →
      ∃ n ∈ get_flat_menu_for_roles stC2b [2], n.id = 1) ∧
    ((⟨1, "Root", "/r", none, 0, none, true⟩ : MenuRec).is_active = false →
      (∃ t ∈ get_menu_tree_for_roles stC2b [2],
        t.rootPair = (2, toNode ⟨2, "Leaf", "/l", none, 0, some 1, true⟩)) ∧
      ∀ n ∈ get_flat_menu_for_roles stC2b [2], n.id ≠ 1) :=
  C2_ancestor_inclusion stC2b (by decide) (by decide) [2] 2 1
    ⟨2, "Leaf", "/l", none, 0, some 1, true⟩ ⟨1, "Root", "/r", none, 0, none, true⟩
    (by decide) (by decide) (by decide) rfl rfl (by decide) (by decide)

/-! ### Sorting claims -/

theorem charListLE_total : ∀ as bs : List Char,
    (charListLE as bs || charListLE bs as) = true := by
  intro as
  induction as with
  | nil => intro bs; simp [charListLE]
  | cons a as ih =>
    intro bs
    cases bs with
    | nil => simp [charListLE]
    | cons b bs =>
      by_cases hab : a = b
      · subst hab
        simpa [charListLE] using ih bs
      · have hba : b ≠ a := fun h => hab h.symm
        simp only [charListLE, if_neg hab, if_neg hba]
        rcases lt_trichotomy a b with h | h | h
        · simp [h]
        · exact absurd h hab
        · simp [h]

theorem charListLE_trans : ∀ as bs cs : List Char, charListLE as bs = true →
    charListLE bs cs = true → charListLE as cs = true := by
  intro as
  induction as with
  | nil => intro bs cs h1 h2; simp [charListLE]
  | cons a as ih =>
    intro bs cs h1 h2
    cases bs with
    | nil => simp [charListLE] at h1
    | cons b bs =>
      cases cs with
      | nil => simp [charListLE] at h2
      | cons c cs =>
        simp only [charListLE] at h1 h2 ⊢
        by_cases hab : a = b
        · subst hab
          rw [if_pos rfl] at h1
          by_cases hac : a = c
          · subst hac
            rw [if_pos rfl] at h2 ⊢
            exact ih bs cs h1 h2
          · rw [if_neg hac] at h2 ⊢
            exact h2
        · rw [if_neg hab] at h1
          have haltb : a < b := of_decide_eq_true h1
          by_cases hbc : b = c
          · subst hbc
            rw [if_neg hab]
            exact h1
          · rw [if_neg hbc] at h2
            have hbltc : b < c := of_decide_eq_true h2
            have haltc : a < c := lt_trans haltb hbltc
            rw [if_neg (ne_of_lt haltc)]
            exact decide_eq_true haltc

theorem pairLE_trans : ∀ a b c : Int × MenuNodeData, pairLE a b = true →
    pairLE b c = true → pairLE a c = true := by
  intro a b c h1 h2
  simp only [pairLE, nodeKeyLE, strLE, Bool.or_eq_true, Bool.and_eq_true,
    decide_eq_true_eq] at h1 h2 ⊢
  rcases h1 with h1 | ⟨h1e, h1s⟩ <;> rcases h2 with h2 | ⟨h2e, h2s⟩
  · exact Or.inl (lt_trans h1 h2)
  · exact Or.inl (by omega)
  · exact Or.inl (by omega)
  · exact Or.inr ⟨by omega, charListLE_trans _ _ _ h1s h2s⟩

theorem pairLE_total : ∀ a b : Int × MenuNodeData,
    (pairLE a b || pairLE b a) = true := by
  intro a b
  simp only [pairLE, nodeKeyLE, strLE, Bool.or_eq_true, Bool.and_eq_true,
    decide_eq_true_eq]
  rcases lt_trichotomy a.2.order_index b.2.order_index with h | h | h
  · exact Or.inl (Or.inl h)
  · have := charListLE_total (pyLower a.2.name).data (pyLower b.2.name).data
    rcases Bool.or_eq_true_iff.mp this with hs | hs
    · exact Or.inl (Or.inr ⟨h, hs⟩)
    · exact Or.inr (Or.inr ⟨h.symm, hs⟩)
  · exact Or.inr (Or.inl h)

theorem insertStable_pairwise {α : Type} {le : α → α → Bool}
    (htrans : ∀ a b c, le a b = true → le b c = true → le a c = true)
    (htotal : ∀ a b, (le a b || le b a) = true) (x : α) :
    ∀ l : List α, l.Pairwise (fun a b => le a b = true) →
      (insertStable le x l).Pairwise (fun a b => le a b = true) := by
  intro l
  induction l with
  | nil => intro _; simp [insertStable]
  | cons y ys ih =>
    intro h
    rcases List.pairwise_cons.mp h with ⟨hy, hys⟩
    unfold insertStable
    by_cases hle : le y x = true
    · rw [if_pos hle]
      refine List.pairwise_cons.mpr ⟨?_, ih hys⟩
      intro b hb
      rcases (mem_insertStable _).mp hb with rfl | hbys
      · exact hle
      · exact hy b hbys
    · rw [if_neg hle]
      have hxy : le x y = true := by
        rcases Bool.or_eq_true_iff.mp (htotal x y) with h1 | h1
        · exact h1
        · exact absurd h1 hle
      refine List.pairwise_cons.mpr ⟨?_, h⟩
      intro b hb
      rcases List.mem_cons.mp hb with rfl | hbys
      · exact hxy
      · exact htrans x y b hxy (hy b hbys)

theorem pySort_pairwise {α : Type} {le : α → α → Bool}
    (htrans : ∀ a b c, le a b = true → le b c = true → le a c = true)
    (htotal : ∀ a b, (le a b || le b a) = true) :
    ∀ l : List α, (pySort le l).Pairwise (fun a b => le a b = true) := by
  have main : ∀ (l acc : List α), acc.Pairwise (fun a b => le a b = true) →
      (l.foldl (fun acc x => insertStable le x acc) acc).Pairwise
        (fun a b => le a b = true) := by
    intro l
    induction l with
    | nil => intro acc h; simpa using h
    | cons x xs ih =>
      intro acc h
      exact ih (insertStable le x acc) (insertStable_pairwise htrans htotal x acc h)
  intro l
  exact main l [] List.Pairwise.nil

/-- The claimed sibling ordering: strictly smaller `order_index` first, ties
broken by case-insensitive name ascending. -/
def keyOrdered (s t : MTree) : Prop :=
  s.rootPair.2.order_index < t.rootPair.2.order_index ∨
    (s.rootPair.2.order_index = t.rootPair.2.order_index ∧
      strLE (pyLower s.rootPair.2.name) (pyLower t.rootPair.2.name) = true)

/-- A sibling list where every earlier sibling is at or before every later
one in the claimed ordering. -/
def siblingsOrdered (l : List MTree) : Prop := List.Pairwise keyOrdered l

/-- The sibling ordering holds recursively at every level of a tree. -/
inductive AllSorted : MTree → Prop where
  | node (kv : Int × MenuNodeData) (cs : List MTree)
      (hord : siblingsOrdered cs) (hsub : ∀ t ∈ cs, AllSorted t) :
      AllSorted (.node kv cs)

theorem pairLE_keyOrdered {nodes : List (Int × MenuNodeData)} {f : Nat}
    {c d : Int × MenuNodeData} (h : pairLE c d = true) :
    keyOrdered (buildTree nodes f c) (buildTree nodes f d) := by
  unfold keyOrdered
  rw [buildTree_rootPair, buildTree_rootPair]
  simpa [pairLE, nodeKeyLE, Bool.or_eq_true, Bool.and_eq_true,
    decide_eq_true_eq] using h

theorem buildTree_allSorted {nodes : List (Int × MenuNodeData)} :
    ∀ (f : Nat) (kv : Int × MenuNodeData), AllSorted (buildTree nodes f kv) := by
  intro f
  induction f with
  | zero =>
    intro kv
    exact .node kv [] List.Pairwise.nil (by intro t ht; cases ht)
  | succ f ih =>
    intro kv
    refine .node kv _ ?_ ?_
    · unfold siblingsOrdered
      refine List.pairwise_map.mpr ?_
      exact (pySort_pairwise pairLE_trans pairLE_total
        (childrenNodes nodes kv.1)).imp (fun h => pairLE_keyOrdered h)
    · intro t ht
      rcases List.mem_map.mp ht with ⟨c, _, rfl⟩
      exact ih c

/-- C7: in every forest returned by `get_menu_tree_for_roles`, sibling
ordering is deterministic and applied recursively at every level: at the
top level and in every children list, a sibling with a strictly lower
`order_index` comes first, and ties on `order_index` are broken by
case-insensitive name ascending. -/
theorem C7_siblings_sorted (st : CacheState) (role_ids : List Int) :
    siblingsOrdered (get_menu_tree_for_roles st role_ids) ∧
    ∀ t ∈ get_menu_tree_for_roles st role_ids, AllSorted t := by
  by_cases hne : allowedIds st role_ids = []
  · rw [get_menu_tree_empty hne]
    exact ⟨List.Pairwise.nil, by intro t ht; cases ht⟩
  · rw [get_menu_tree_eq hne]
    constructor
    · unfold siblingsOrdered
      refine List.pairwise_map.mpr ?_
      exact (pySort_pairwise pairLE_trans pairLE_total _).imp
        (fun h => pairLE_keyOrdered h)
    · intro t ht
      rcases List.mem_map.mp ht with ⟨kv, _, rfl⟩
      exact buildTree_allSorted _ kv

end MenuCache
